import Mathlib

/-!
Verification of the CPD (Collaboration Pattern Discovery) subgraph-mining core.

This development shallowly embeds the Rust sources of the repository:
  * `src/data/vertex.rs`, `src/data/graph.rs`   — the graph data model,
  * `src/data/utils.rs`                         — the connectivity oracle and
    the vertex/edge histogram extractors,
  * `src/cpd/candidate_generation.rs`           — the FullyConnected candidate
    generator,
  * `src/cpd/graph_matching.rs`                 — the three graph matchers,
  * `src/cpd/candidate_matching.rs`             — the Naive and Parallel
    candidate matchers and the final de-duplication.

Machine integers (`usize`) are modelled as `Nat` (no arithmetic in the sources
can overflow in a way the claims depend on), `f64` arithmetic is modelled over
`ℝ`, fallible operations (`unwrap`, indexing) return `Option`, and the two
Rayon parallel regions are modelled by their deterministic left-to-right
sequentialisations (the spec fixes output order as the concatenation of the
per-input-graph blocks in input order).
-/

namespace CPD

/-- Modelled from the spec: the repository module `src/data/edge.rs` is not
present under `src/`; the spec describes an Edge as `from` (owner vertex id),
`to` (target vertex id), `e_label`, and "a local `id` unique within the owning
vertex's edge list".  The field `from` and `to` are Lean keywords, so they are named
`from'` and `to'` here. -/
structure Edge where
  from' : Nat
  to' : Nat
  e_label : Nat
  id : Nat
deriving DecidableEq

/-- `Vertex` from `src/data/vertex.rs`: dense id, label, type, and the ordered
list of outgoing edges (stored on their source vertex). -/
structure Vertex where
  id : Nat
  label : Nat
  vertex_type : Nat
  edges : List Edge
deriving DecidableEq

/-- Modelled from the spec: `Vertex::push(to, e_label)` appends
`Edge::new(self.id, to, e_label)`; the edge id is the local index in the
owner's edge list ("a local `id` unique within the owning vertex's edge
list"). -/
def Vertex.push (v : Vertex) (t e_label : Nat) : Vertex :=
  { v with edges := v.edges ++ [Edge.mk v.id t e_label v.edges.length] }

/-- `Graph` from `src/data/graph.rs`: numeric id plus the dense vertex list.
The three lazily computed caches are pure functions of `vertices` and are
modelled as functions below. -/
structure Graph where
  id : Nat
  vertices : List Vertex
deriving DecidableEq

instance : Inhabited Vertex := ⟨⟨0, 0, 0, []⟩⟩

/-- `Graph::new` -/
def Graph.new (id : Nat) : Graph := ⟨id, []⟩

/-- `Graph::create_vertex_with_data`: appends a fresh vertex whose id is the
current vertex count.  The Rust function returns `&mut Vertex`; functionally we
return the updated graph (the fresh vertex is the last element). -/
def Graph.create_vertex_with_data (g : Graph) (label vertex_type : Nat) : Graph :=
  { g with vertices := g.vertices ++ [⟨g.vertices.length, label, vertex_type, []⟩] }

/-- Well-formedness invariant of a graph (spec §3 "Invariants"): vertex ids are
the dense positions `0..|V|-1`, each edge's `from` is its owner's id, and each
edge's `to` references an existing vertex. -/
def Graph.wfb (g : Graph) : Bool :=
  (List.range g.vertices.length).all fun i =>
    (g.vertices.getD i default).id == i &&
      (g.vertices.getD i default).edges.all fun e =>
        e.from' == (g.vertices.getD i default).id && decide (e.to' < g.vertices.length)

/-- Insertion into a `HashSet` modelled on duplicate-free lists: a no-op when
the element is present, an append otherwise (only membership and cardinality of
the set are ever consumed). -/
def insertId (a : Nat) (l : List Nat) : List Nat :=
  if a ∈ l then l else l ++ [a]

/-- One full pass of the flood loop of `vertices_are_connected`
(`src/data/utils.rs` lines 20-27): scan the remaining edges in order; an edge
whose `from` or `to` is already visited fires, adding both endpoints to the
visited set and its id to the removal set.  Later edges of the same pass see
the updated visited set, exactly as in the source. -/
def connPass (visited toRemove : List Nat) : List Edge → List Nat × List Nat
  | [] => (visited, toRemove)
  | e :: rest =>
    if e.from' ∈ visited ∨ e.to' ∈ visited then
      connPass (insertId e.to' (insertId e.from' visited)) (insertId e.id toRemove) rest
    else
      connPass visited toRemove rest

/-- The `while` loop of `vertices_are_connected`.  The loop terminates because
every iteration that does not break removes at least one edge, so
`edges.length + 1` units of fuel always suffice; the fuel-0 branch repeats the
function's final comparison and is never reached from `vertices_are_connected`. -/
def connLoop (fuel : Nat) (v_ids visited : List Nat) (edges : List Edge) : Bool :=
  match fuel with
  | 0 => v_ids.length == visited.length
  | fuel + 1 =>
    if v_ids.length == visited.length then true
    else
      let p := connPass visited [] edges
      if p.2.isEmpty then false
      else connLoop fuel v_ids p.1 (edges.filter fun e => !(p.2.contains e.id))

/-- `vertices_are_connected` (`src/data/utils.rs` lines 10-36).  The source
unconditionally dereferences `vertices.first().unwrap()`, so the empty list is
a panic, modelled as `none`. -/
def vertices_are_connected (vertices : List Vertex) : Option Bool :=
  match vertices with
  | [] => none
  | v0 :: _ =>
    let v_ids : List Nat := (vertices.map (·.id)).dedup
    let edges : List Edge :=
      (vertices.flatMap (·.edges)).filter fun e => e.from' ∈ v_ids ∧ e.to' ∈ v_ids
    some (connLoop (edges.length + 1) v_ids [v0.id] edges)

/-- Ids of a list of vertices. -/
def idsOf (vs : List Vertex) : List Nat := vs.map (·.id)

/-- One undirected adjacency step inside the subgraph induced by `vs`
(spec §4.1: "keeping only edges whose both endpoints are in the set"). -/
def stepRel (vs : List Vertex) (a b : Nat) : Prop :=
  a ∈ idsOf vs ∧ b ∈ idsOf vs ∧
    ∃ v ∈ vs, ∃ e ∈ v.edges,
      (e.from' = a ∧ e.to' = b) ∨ (e.from' = b ∧ e.to' = a)

/-- Weak connectivity of the subgraph induced by a vertex list: every two
member ids are joined by a chain of induced edges, in either direction. -/
def weaklyConnected (vs : List Vertex) : Prop :=
  ∀ a ∈ idsOf vs, ∀ b ∈ idsOf vs, Relation.ReflTransGen (stepRel vs) a b

/-! ## Candidate generation (`src/cpd/candidate_generation.rs`) -/

/-- `Graph::get_vertices_by_type` -/
def get_vertices_by_type (g : Graph) (t : Nat) : List Vertex :=
  g.vertices.filter fun v => v.vertex_type == t

/-- Append an edge to the vertex stored at index `i`
(`new_candidate.vertices.get_mut(i).unwrap().push(t, e_label)`). -/
def Graph.pushEdgeAt (g : Graph) (i t e_label : Nat) : Option Graph :=
  match g.vertices.get? i with
  | none => none
  | some v => some { g with vertices := g.vertices.set i (v.push t e_label) }

/-- One iteration of the inner edge loop of
`_get_fully_connected_candidates_of_graph` (lines 159-185): look up the edge's
target in the input graph; if it is an object vertex, map it (creating the
candidate copy on first sight) and append the edge; else if it is a selected
activity vertex, append the mapped edge; else drop the edge.  The state is the
candidate graph under construction together with the source-to-candidate id
mapping. -/
def addCandidateEdge (graph : Graph) (object_vertex_types : List Nat)
    (activity_v_ids : List Nat) (av_id : Nat) (st : Graph × List (Nat × Nat)) (e : Edge) :
    Option (Graph × List (Nat × Nat)) := do
  let to_vertex ← graph.vertices.get? e.to'
  if to_vertex.vertex_type ∈ object_vertex_types then
    let st1 :=
      match List.lookup to_vertex.id st.2 with
      | some i => (st.1, st.2, i)
      | none =>
        (st.1.create_vertex_with_data to_vertex.label to_vertex.vertex_type,
          st.2 ++ [(to_vertex.id, st.1.vertices.length)], st.1.vertices.length)
    let fromId ← List.lookup av_id st1.2.1
    let g' ← st1.1.pushEdgeAt fromId st1.2.2 e.e_label
    pure (g', st1.2.1)
  else if to_vertex.id ∈ activity_v_ids then
    let fromId ← List.lookup av_id st.2
    let toId ← List.lookup to_vertex.id st.2
    let g' ← st.1.pushEdgeAt fromId toId e.e_label
    pure (g', st.2)
  else
    pure st

/-- Construction of one candidate from a connected activity combination
(lines 145-186): phase one copies the selected activity vertices and records
the id mapping, phase two walks their edges through `addCandidateEdge`.  The
final mapping is returned alongside the candidate graph. -/
def buildCandidate (graph : Graph) (object_vertex_types : List Nat)
    (comb : List Vertex) (newId : Nat) : Option (Graph × List (Nat × Nat)) :=
  let activity_v_ids : List Nat := comb.map (·.id)
  let st0 : Graph × List (Nat × Nat) :=
    comb.foldl
      (fun st av =>
        (st.1.create_vertex_with_data av.label av.vertex_type,
          st.2 ++ [(av.id, st.1.vertices.length)]))
      (Graph.new newId, [])
  comb.foldlM
    (fun st av =>
      av.edges.foldlM (addCandidateEdge graph object_vertex_types activity_v_ids av.id) st)
    st0

/-- `_get_fully_connected_candidates_of_graph` (lines 123-192): for each size
`n` in `min_n..=max_n`, for each size-`n` combination of activity vertices,
keep the combination when the connectivity oracle accepts it and build a
candidate with a fresh id from the shared counter (`next_id` increments and
then returns the counter).  Combinations are enumerated by
`List.sublistsLen`, which produces the same collection as
`itertools::combinations` (possibly in a different order; no claim below
depends on the enumeration order).  The returned pair is the candidate list
(with each candidate's final id mapping) and the new counter value.
`genStep` is the per-combination loop body (lines 144-187). -/
def genStep (graph : Graph) (object_vertex_types : List Nat)
    (st : List (Graph × List (Nat × Nat)) × Nat) (comb : List Vertex) :
    Option (List (Graph × List (Nat × Nat)) × Nat) := do
  let conn ← vertices_are_connected comb
  if conn then do
    let newId := st.2 + 1
    let c ← buildCandidate graph object_vertex_types comb newId
    pure (st.1 ++ [c], newId)
  else
    pure st

/-- The two nested enumeration loops of
`_get_fully_connected_candidates_of_graph` around `genStep`. -/
def _get_fully_connected_candidates_of_graph (graph : Graph) (activity_vertex_type : Nat)
    (object_vertex_types : List Nat) (min_n max_n : Nat) (counter : Nat) :
    Option (List (Graph × List (Nat × Nat)) × Nat) :=
  let activity_vertices := get_vertices_by_type graph activity_vertex_type
  (List.range' min_n (max_n + 1 - min_n)).foldlM
    (fun st n =>
      (activity_vertices.sublistsLen n).foldlM (genStep graph object_vertex_types) st)
    ([], counter)

/-- `get_fully_connected_candidates`: the Rayon parallel map over the input
graphs, sequentialised in input order; the workers share only the monotonic id
counter, threaded here from graph to graph. -/
def get_fully_connected_candidates (graphs : List Graph) (activity_vertex_type : Nat)
    (object_vertex_types : List Nat) (min_n max_n : Nat) :
    Option (List (List (Graph × List (Nat × Nat))) × Nat) :=
  graphs.foldlM
    (fun st g => do
      let r ← _get_fully_connected_candidates_of_graph g activity_vertex_type
        object_vertex_types min_n max_n st.2
      pure (st.1 ++ [r.1], r.2))
    (([] : List (List (Graph × List (Nat × Nat)))), 0)

/-! ## Graph matching (`src/cpd/graph_matching.rs`) -/

/-- Result of comparing two graphs. -/
inductive MatchingResult
  | ExactMatch
  | RelaxedMatch
  | NoMatch
deriving DecidableEq

/-- Costs for the approximate graph edit distance. -/
structure GEDEditCosts where
  node_sub : Nat
  node_ins : Nat
  node_del : Nat
  edge_sub : Nat
  edge_ins : Nat
  edge_del : Nat
deriving DecidableEq

/-- `GEDEditCosts::default()`: all six costs are 1. -/
def GEDEditCosts.default1 : GEDEditCosts := ⟨1, 1, 1, 1, 1, 1⟩

/-- Outgoing edge list of node `i` of the petgraph adjacency form, as
(target index, edge label) pairs in stored order (`build_digraph` inserts the
vertices in order, so node indices coincide with vertex ids/positions). -/
def outEdges (g : Graph) (i : Nat) : List (Nat × Nat) :=
  (((g.vertices.get? i).map (·.edges)).getD []).map fun e => (e.to', e.e_label)

/-- `edge_penalty` (lines 291-331): charge `edge_ins` for the difference of the
outgoing-edge counts and `edge_sub` for each position-aligned pair of edges
whose labels differ. -/
def edge_penalty (A B : Graph) (i j : Nat) (ec : GEDEditCosts) : Nat :=
  ((outEdges A i).zip (outEdges B j)).foldl
    (fun acc p => if p.1.2 ≠ p.2.2 then acc + ec.edge_sub else acc)
    ((max (outEdges A i).length (outEdges B j).length -
        min (outEdges A i).length (outEdges B j).length) * ec.edge_ins)

/-- One cell of the square `fast_ged` cost matrix (lines 251-277). -/
def gedCell (A B : Graph) (ec : GEDEditCosts) (i j : Nat) : Nat :=
  if i < A.vertices.length ∧ j < B.vertices.length then
    (if (A.vertices.getD i default).label = (B.vertices.getD j default).label ∧
        (A.vertices.getD i default).vertex_type = (B.vertices.getD j default).vertex_type
      then 0 else ec.node_sub)
      + edge_penalty A B i j ec
  else if i < A.vertices.length then ec.node_del
  else ec.node_ins

/-- Total cost of the assignment `i ↦ p[i]` over the cost matrix (the source
sums `cost_matrix[i * width + j]` over the returned assignment pairs). -/
def permCost (N : Nat) (cost : Nat → Nat → Nat) (p : List Nat) : Nat :=
  ∑ i ∈ Finset.range N, cost i (p.getD i 0)

/-- Minimum of a list of naturals (0 for the empty list; only applied to
nonempty lists below). -/
def minOfList : List Nat → Nat
  | [] => 0
  | x :: xs => xs.foldl min x

/-- Modelled from the spec: the external `hungarian::minimize` solver is not
part of this repository; the spec says "Solve the assignment problem
(Hungarian / Kuhn-Munkres) to minimize total cost.  The total cost is the
distance", i.e. the result is the minimum over all perfect assignments of the
square matrix. -/
def hungarianMin (N : Nat) (cost : Nat → Nat → Nat) : Nat :=
  minOfList ((List.range N).permutations'.map (permCost N cost))

/-- The inverse of a permutation `p` of `0..N-1`, given by positionwise
`indexOf`; used to relate an assignment and its transpose. -/
def invPerm (N : Nat) (p : List Nat) : List Nat :=
  (List.range N).map fun j => p.indexOf j

/-- `fast_ged` (lines 240-288). -/
def fast_ged (A B : Graph) (ec : GEDEditCosts) : Nat :=
  hungarianMin (max A.vertices.length B.vertices.length) (gedCell A B ec)

/-- Multiset equality of two lists of (target index, edge label) pairs. -/
def pairListPerm (l1 l2 : List (Nat × Nat)) : Bool :=
  @List.isPerm _ instBEqOfDecidableEq l1 l2

/-- Whether the position map `p` (node `i` of `A` to node `p[i]` of `B`) is an
isomorphism: node attributes `(label, type)` agree and the outgoing edge
multisets correspond under `p` with equal `e_label`s. -/
def isoBy (A B : Graph) (p : List Nat) : Bool :=
  (List.range A.vertices.length).all fun i =>
    decide (p.getD i 0 < B.vertices.length) &&
      (A.vertices.getD i default).label == (B.vertices.getD (p.getD i 0) default).label &&
      (A.vertices.getD i default).vertex_type ==
        (B.vertices.getD (p.getD i 0) default).vertex_type &&
      pairListPerm ((A.vertices.getD i default).edges.map fun e => (p.getD e.to' 0, e.e_label))
        ((B.vertices.getD (p.getD i 0) default).edges.map fun e => (e.to', e.e_label))

/-- Modelled from the spec: the external petgraph `is_isomorphic_matching`
(VF2) with "node equality = `(label, type)` pair equality and edge equality =
`e_label` equality"; true iff some bijection of the node sets is an
isomorphism. -/
def vf2Iso (A B : Graph) : Bool :=
  A.vertices.length == B.vertices.length &&
    (List.range A.vertices.length).permutations'.any (isoBy A B)

/-- `match_graphs` for the `VF2IsomorphismTest` variant: `ExactMatch` iff an
isomorphism exists (`calc_distance` is 1.0), else `NoMatch`. -/
def matchGraphsVF2 (A B : Graph) : MatchingResult :=
  if vf2Iso A B then .ExactMatch else .NoMatch

/-- `match_graphs` for the `GEDFastHungarian` variant (lines 139-157): escalate
to VF2 at distance 0, relax up to the threshold, otherwise no match.  The
distance is a `usize` cast through `f64` and rounded back; the round trip is
the identity, so it is elided. -/
def matchGraphsGED (ec : GEDEditCosts) (matching_threshold : Nat) (A B : Graph) :
    MatchingResult :=
  if fast_ged A B ec = 0 then (if vf2Iso A B then .ExactMatch else .RelaxedMatch)
  else if fast_ged A B ec ≤ matching_threshold then .RelaxedMatch
  else .NoMatch

/-- The vertex-label histogram `get_vertex_vector`, as a count function. -/
def vertexCount (g : Graph) (l : Nat) : Nat :=
  (g.vertices.filter fun v => v.label = l).length

/-- Support of the vertex-label histogram. -/
def vertexKeys (g : Graph) : Finset Nat := (g.vertices.map (·.label)).toFinset

/-- Edge-signature tuples `(source_label, source_type, e_label, target_label,
target_type)` of `get_edge_vector`. -/
abbrev EdgeSig := Nat × Nat × Nat × Nat × Nat

/-- The edge signatures of a graph, one per edge in order.  The source unwraps
`graph.vertices.get(e.to)`; an out-of-range target is a panic there and is
dropped here, so the histogram agrees with the source on well-formed graphs
(every theorem consuming it assumes `Graph.wfb`). -/
def edgeSigs (g : Graph) : List EdgeSig :=
  g.vertices.flatMap fun v =>
    v.edges.filterMap fun e =>
      (g.vertices.get? e.to').map fun t =>
        (v.label, v.vertex_type, e.e_label, t.label, t.vertex_type)

/-- The edge-signature histogram `get_edge_vector`, as a count function. -/
def edgeCount (g : Graph) (k : EdgeSig) : Nat := (edgeSigs g).count k

/-- Support of the edge-signature histogram. -/
def edgeKeys (g : Graph) : Finset EdgeSig := (edgeSigs g).toFinset

/-- `_calc_cosine_similarity` (lines 173-198) over the union of the two key
sets: similarity 0 when either norm vanishes, else
`dot / (sqrt normOne * sqrt normOther)`. -/
noncomputable def calcCosineSimilarity {κ : Type} [DecidableEq κ] (keys : Finset κ)
    (c1 c2 : κ → Nat) : ℝ :=
  if (∑ k ∈ keys, (c1 k : ℝ) * (c1 k : ℝ)) = 0 ∨
      (∑ k ∈ keys, (c2 k : ℝ) * (c2 k : ℝ)) = 0 then 0
  else
    (∑ k ∈ keys, (c1 k : ℝ) * (c2 k : ℝ)) /
      (Real.sqrt (∑ k ∈ keys, (c1 k : ℝ) * (c1 k : ℝ)) *
        Real.sqrt (∑ k ∈ keys, (c2 k : ℝ) * (c2 k : ℝ)))

/-- `graph_cosine_similarity` (lines 162-171):
`alpha * sim_vertices + (1 - alpha) * sim_edges`. -/
noncomputable def graph_cosine_similarity (A B : Graph) (alpha : ℝ) : ℝ :=
  alpha * calcCosineSimilarity (vertexKeys A ∪ vertexKeys B) (vertexCount A) (vertexCount B)
    + (1 - alpha) *
      calcCosineSimilarity (edgeKeys A ∪ edgeKeys B) (edgeCount A) (edgeCount B)

/-- The escalation tolerance `EPS = 1e-8` of the cosine matcher. -/
noncomputable def EPS : ℝ := 1 / 100000000

open Classical in
/-- `match_graphs` for the `CosineSimilarity` variant (lines 113-131): escalate
to VF2 at similarity `≥ 1 - EPS`, relax at the threshold, otherwise no
match. -/
noncomputable def matchGraphsCosine (alpha matching_threshold : ℝ) (A B : Graph) :
    MatchingResult :=
  if graph_cosine_similarity A B alpha ≥ 1 - EPS then
    (if vf2Iso A B then .ExactMatch else .RelaxedMatch)
  else if graph_cosine_similarity A B alpha ≥ matching_threshold then .RelaxedMatch
  else .NoMatch

/-- The three pluggable matcher variants. -/
inductive AlgoGraphMatching
  | CosineSimilarity (alpha matching_threshold : ℝ)
  | VF2IsomorphismTest
  | GEDFastHungarian (edit_costs : GEDEditCosts) (matching_threshold : Nat)

/-- `AlgoGraphMatching::match_graphs`, dispatching on the variant. -/
noncomputable def AlgoGraphMatching.match_graphs :
    AlgoGraphMatching → Graph → Graph → MatchingResult
  | .CosineSimilarity alpha t, A, B => matchGraphsCosine alpha t A B
  | .VF2IsomorphismTest, A, B => matchGraphsVF2 A B
  | .GEDFastHungarian ec t, A, B => matchGraphsGED ec t A B

/-! ## Candidate matching (`src/cpd/candidate_matching.rs`)

The candidate matcher is parameterised by `algo_graph_matching` and only calls
its `match_graphs` method, so the embedding takes the comparison function
`m : Graph → Graph → MatchingResult` directly.  Claims about the candidate
matcher instantiate `m` with `AlgoGraphMatching.match_graphs` variants. -/

/-- Modelled from the spec: the `Candidate` wrapper imported from
`candidate_generation` is absent from the `src/` snapshot; it carries the
candidate graph (the matcher only accesses `candidate.graph`). -/
structure Candidate where
  graph : Graph
deriving DecidableEq

/-- A pattern surviving the support thresholds, with its two frequencies. -/
structure PatternResult where
  pattern : Graph
  frequency_exact : Nat
  frequency_relaxed : Nat
deriving DecidableEq

/-- The pairwise match memoization map, keyed by ordered id pairs
(`HashMap` in the naive variant, `DashMap` in the parallel one). -/
abbrev MatchCache := List ((Nat × Nat) × MatchingResult)

/-- The canonical unordered key `(min(a,b), max(a,b))`. -/
def cacheKey (a b : Nat) : Nat × Nat := if a < b then (a, b) else (b, a)

/-- `match_results.entry(key).or_insert_with(|| m(a, b))`: return the cached
result for the pair if present, else compute `m a b` and insert it. -/
def cacheGetOrInsert (m : Graph → Graph → MatchingResult) (a b : Candidate)
    (c : MatchCache) : MatchingResult × MatchCache :=
  let key := cacheKey a.graph.id b.graph.id
  match List.lookup key c with
  | some r => (r, c)
  | none => (m a.graph b.graph, c ++ [(key, m a.graph b.graph)])

/-- The inner candidate loop of `run_parallel` (lines 274-295): no early exit;
accumulate whether an exact and whether a relaxed result was seen. -/
def scanBucketP (m : Graph → Graph → MatchingResult) (a : Candidate) :
    List Candidate → Bool → Bool → MatchCache → Bool × Bool × MatchCache
  | [], ex, rel, c => (ex, rel, c)
  | b :: rest, ex, rel, c =>
    let rc := cacheGetOrInsert m a b c
    match rc.1 with
    | .ExactMatch => scanBucketP m a rest true rel rc.2
    | .RelaxedMatch => scanBucketP m a rest ex true rc.2
    | .NoMatch => scanBucketP m a rest ex rel rc.2

/-- The other-graphs loop of `run_parallel` (lines 263-303) for one candidate
`a` at graph index `i_a` and size-bucket index `i_n`: skip `i_a` itself, fetch
the same-size bucket (`candidates_of_graph_b.get(i_n_a).unwrap()`; `none`
models the panic on a missing bucket), and bump the frequencies per
contributing graph.  State is `(freq_exact, freq_relaxed, cache)`. -/
def processOthersP (m : Graph → Graph → MatchingResult) (i_a i_n : Nat) (a : Candidate) :
    Nat → List (List (List Candidate)) → Nat × Nat × MatchCache →
      Option (Nat × Nat × MatchCache)
  | _, [], st => some st
  | i_b, gb :: rest, st =>
    if i_b = i_a then processOthersP m i_a i_n a (i_b + 1) rest st
    else
      match gb.get? i_n with
      | none => none
      | some bucket =>
        let r := scanBucketP m a bucket false false st.2.2
        processOthersP m i_a i_n a (i_b + 1) rest
          (if r.1 then (st.1 + 1, st.2.1 + 1, r.2.2)
           else if r.2.1 then (st.1, st.2.1 + 1, r.2.2)
           else (st.1, st.2.1, r.2.2))

/-- The candidate loop of `run_parallel` within one size bucket: compute the
frequencies (both start at 1) and emit the candidate when either threshold is
reached. -/
def runBucketP (cands : List (List (List Candidate))) (m : Graph → Graph → MatchingResult)
    (support_exact support_relaxed i_a i_n : Nat) :
    List Candidate → List PatternResult × MatchCache →
      Option (List PatternResult × MatchCache)
  | [], st => some st
  | a :: rest, st => do
    let r ← processOthersP m i_a i_n a 0 cands (1, 1, st.2)
    runBucketP cands m support_exact support_relaxed i_a i_n rest
      (if support_exact ≤ r.1 ∨ support_relaxed ≤ r.2.1
       then (st.1 ++ [⟨a.graph, r.1, r.2.1⟩], r.2.2)
       else (st.1, r.2.2))

/-- The size-bucket loop of `run_parallel` for one input graph. -/
def runGraphP (cands : List (List (List Candidate))) (m : Graph → Graph → MatchingResult)
    (support_exact support_relaxed i_a : Nat) :
    Nat → List (List Candidate) → List PatternResult × MatchCache →
      Option (List PatternResult × MatchCache)
  | _, [], st => some st
  | i_n, bucket :: rest, st => do
    let st' ← runBucketP cands m support_exact support_relaxed i_a i_n bucket st
    runGraphP cands m support_exact support_relaxed i_a (i_n + 1) rest st'

/-- The outer parallel flat-map of `run_parallel` (lines 251-317),
sequentialised in input order per the spec's ordering guarantee. -/
def runAllP (cands : List (List (List Candidate))) (m : Graph → Graph → MatchingResult)
    (support_exact support_relaxed : Nat) :
    Nat → List (List (List Candidate)) → List PatternResult × MatchCache →
      Option (List PatternResult × MatchCache)
  | _, [], st => some st
  | i_a, ga :: rest, st => do
    let st' ← runGraphP cands m support_exact support_relaxed i_a 0 ga st
    runAllP cands m support_exact support_relaxed (i_a + 1) rest st'

/-- The counting phase of `run_parallel`: all surviving candidates in
production order, together with the populated match cache. -/
def run_parallel_survivors (cands : List (List (List Candidate)))
    (m : Graph → Graph → MatchingResult) (support_exact support_relaxed : Nat) :
    Option (List PatternResult × MatchCache) :=
  runAllP cands m support_exact support_relaxed 0 cands ([], [])

/-- The de-duplication walk of `run_parallel` (lines 318-347): keep each first
unvisited survivor and mark every later survivor whose pair is cached as an
exact match. -/
def dedupGo (cache : MatchCache) : List PatternResult → List Nat → List PatternResult
  | [], _ => []
  | p :: rest, visited =>
    if p.pattern.id ∈ visited then dedupGo cache rest visited
    else
      p :: dedupGo cache rest
        (rest.foldl
          (fun vis q =>
            if p.pattern.id = q.pattern.id then vis
            else if List.lookup (cacheKey p.pattern.id q.pattern.id) cache =
                some MatchingResult.ExactMatch
              then insertId q.pattern.id vis
              else vis)
          (insertId p.pattern.id visited))

/-- `run_parallel` (lines 241-348): counting phase followed by
de-duplication. -/
def run_parallel (cands : List (List (List Candidate)))
    (m : Graph → Graph → MatchingResult) (support_exact support_relaxed : Nat) :
    Option (List PatternResult) :=
  (run_parallel_survivors cands m support_exact support_relaxed).map fun rc =>
    dedupGo rc.2 rc.1 []

/-- The inner candidate loop of `run_naive` (lines 199-218): stop at the first
exact match of the bucket (returning its graph id), otherwise record whether a
relaxed match was seen. -/
def naiveScanBucket (m : Graph → Graph → MatchingResult) (a : Candidate) :
    List Candidate → Bool → MatchCache → Option Nat × Bool × MatchCache
  | [], rel, c => (none, rel, c)
  | b :: rest, rel, c =>
    let rc := cacheGetOrInsert m a b c
    match rc.1 with
    | .ExactMatch => (some b.graph.id, rel, rc.2)
    | .RelaxedMatch => naiveScanBucket m a rest true rc.2
    | .NoMatch => naiveScanBucket m a rest rel rc.2

/-- The other-graphs loop of `run_naive` (lines 189-226).  State is
`(freq_exact, freq_relaxed, matches, cache)`; an exact contribution appends the
partner's id to `matches`. -/
def processOthersN (m : Graph → Graph → MatchingResult) (i_a i_n : Nat) (a : Candidate) :
    Nat → List (List (List Candidate)) → Nat × Nat × List Nat × MatchCache →
      Option (Nat × Nat × List Nat × MatchCache)
  | _, [], st => some st
  | i_b, gb :: rest, st =>
    if i_b = i_a then processOthersN m i_a i_n a (i_b + 1) rest st
    else
      match gb.get? i_n with
      | none => none
      | some bucket =>
        let r := naiveScanBucket m a bucket false st.2.2.2
        processOthersN m i_a i_n a (i_b + 1) rest
          (match r.1 with
           | some t_id => (st.1 + 1, st.2.1 + 1, st.2.2.1 ++ [t_id], r.2.2)
           | none =>
             if r.2.1 then (st.1, st.2.1 + 1, st.2.2.1, r.2.2)
             else (st.1, st.2.1, st.2.2.1, r.2.2))

/-- The candidate loop of `run_naive` within one size bucket: skip candidates
whose id is in `can_be_skipped`, else count, emit on the threshold test, and
extend the skip set with all recorded exact partners (whether or not the
candidate was emitted). -/
def runBucketN (cands : List (List (List Candidate))) (m : Graph → Graph → MatchingResult)
    (support_exact support_relaxed i_a i_n : Nat) :
    List Candidate → List PatternResult × List Nat × MatchCache →
      Option (List PatternResult × List Nat × MatchCache)
  | [], st => some st
  | a :: rest, st =>
    if a.graph.id ∈ st.2.1 then
      runBucketN cands m support_exact support_relaxed i_a i_n rest st
    else do
      let r ← processOthersN m i_a i_n a 0 cands (1, 1, [a.graph.id], st.2.2)
      runBucketN cands m support_exact support_relaxed i_a i_n rest
        ((if support_exact ≤ r.1 ∨ support_relaxed ≤ r.2.1
          then st.1 ++ [⟨a.graph, r.1, r.2.1⟩] else st.1),
         r.2.2.1.foldl (fun s i => insertId i s) st.2.1,
         r.2.2.2)

/-- The size-bucket loop of `run_naive` for one input graph. -/
def runGraphN (cands : List (List (List Candidate))) (m : Graph → Graph → MatchingResult)
    (support_exact support_relaxed i_a : Nat) :
    Nat → List (List Candidate) → List PatternResult × List Nat × MatchCache →
      Option (List PatternResult × List Nat × MatchCache)
  | _, [], st => some st
  | i_n, bucket :: rest, st => do
    let st' ← runBucketN cands m support_exact support_relaxed i_a i_n bucket st
    runGraphN cands m support_exact support_relaxed i_a (i_n + 1) rest st'

/-- The outer graph loop of `run_naive` (lines 179-237). -/
def runAllN (cands : List (List (List Candidate))) (m : Graph → Graph → MatchingResult)
    (support_exact support_relaxed : Nat) :
    Nat → List (List (List Candidate)) → List PatternResult × List Nat × MatchCache →
      Option (List PatternResult × List Nat × MatchCache)
  | _, [], st => some st
  | i_a, ga :: rest, st => do
    let st' ← runGraphN cands m support_exact support_relaxed i_a 0 ga st
    runAllN cands m support_exact support_relaxed (i_a + 1) rest st'

/-- `run_naive` (lines 169-239). -/
def run_naive (cands : List (List (List Candidate)))
    (m : Graph → Graph → MatchingResult) (support_exact support_relaxed : Nat) :
    Option (List PatternResult) :=
  (runAllN cands m support_exact support_relaxed 0 cands ([], [], [])).map (·.1)

/-- The two candidate-matcher variants. -/
inductive AlgoCandidateMatching
  | Naive
  | Parallel

/-- `AlgoCandidateMatching::run_matching` (lines 140-166): run the selected
variant, then rewrite the pattern ids to `0, 1, 2, …` in output order. -/
def run_matching (v : AlgoCandidateMatching) (cands : List (List (List Candidate)))
    (m : Graph → Graph → MatchingResult) (support_exact support_relaxed : Nat) :
    Option (List PatternResult) :=
  Option.map
    (fun l : List PatternResult =>
      l.enum.map fun ip => { ip.2 with pattern := { ip.2.pattern with id := ip.1 } })
    (match v with
     | .Naive => run_naive cands m support_exact support_relaxed
     | .Parallel => run_parallel cands m support_exact support_relaxed)

/-! ### Claim-side frequency counts

These definitions transcribe the spec's description of the counting phase
(spec §4.4, claim C1).  `countContrib` restricts graph `Gb`'s candidates to the
size bucket `i_n` the code actually scans; `countContribAll` is the claim's
literal reading in which *every* candidate of `Gb` is considered. -/

/-- Number of input graphs other than `i_a` containing, in bucket `i_n`, at
least one candidate `b` with `m a b = ExactMatch` (for `exactOnly = true`),
respectively with `m a b ∈ {ExactMatch, RelaxedMatch}` (for
`exactOnly = false`). -/
def countContrib (m : Graph → Graph → MatchingResult) (i_a i_n : Nat) (a : Candidate)
    (exactOnly : Bool) : Nat → List (List (List Candidate)) → Nat
  | _, [] => 0
  | i_b, gb :: rest =>
    let c := countContrib m i_a i_n a exactOnly (i_b + 1) rest
    if i_b = i_a then c
    else
      let bucket := gb.getD i_n []
      if bucket.any fun b =>
          m a.graph b.graph == MatchingResult.ExactMatch ||
            (!exactOnly && m a.graph b.graph == MatchingResult.RelaxedMatch)
      then c + 1 else c

/-- The claim's literal count: graphs other than `i_a` containing *anywhere*
(in any size bucket) a candidate `b` with the requested match result. -/
def countContribAll (m : Graph → Graph → MatchingResult) (i_a : Nat) (a : Candidate)
    (exactOnly : Bool) : Nat → List (List (List Candidate)) → Nat
  | _, [] => 0
  | i_b, gb :: rest =>
    let c := countContribAll m i_a a exactOnly (i_b + 1) rest
    if i_b = i_a then c
    else
      if gb.flatten.any fun b =>
          m a.graph b.graph == MatchingResult.ExactMatch ||
            (!exactOnly && m a.graph b.graph == MatchingResult.RelaxedMatch)
      then c + 1 else c

/-- The survivor list predicted by the (bucket-corrected) claim: every
candidate, in production order, with `freq_exact = 1 + countContrib …
exact` and `freq_relaxed = 1 + countContrib … relaxed`, emitted iff
`freq_exact ≥ σ_exact ∨ freq_relaxed ≥ σ_relaxed`. -/
def canonBucket (cands : List (List (List Candidate))) (m : Graph → Graph → MatchingResult)
    (support_exact support_relaxed i_a i_n : Nat) : List Candidate → List PatternResult
  | [] => []
  | a :: rest =>
    let fe := 1 + countContrib m i_a i_n a true 0 cands
    let fr := 1 + countContrib m i_a i_n a false 0 cands
    (if support_exact ≤ fe ∨ support_relaxed ≤ fr then [⟨a.graph, fe, fr⟩] else []) ++
      canonBucket cands m support_exact support_relaxed i_a i_n rest

/-- Per-graph concatenation of `canonBucket` over the size buckets. -/
def canonGraph (cands : List (List (List Candidate))) (m : Graph → Graph → MatchingResult)
    (support_exact support_relaxed i_a : Nat) : Nat → List (List Candidate) → List PatternResult
  | _, [] => []
  | i_n, bucket :: rest =>
    canonBucket cands m support_exact support_relaxed i_a i_n bucket ++
      canonGraph cands m support_exact support_relaxed i_a (i_n + 1) rest

/-- The full claim-predicted survivor list. -/
def canonAll (cands : List (List (List Candidate))) (m : Graph → Graph → MatchingResult)
    (support_exact support_relaxed : Nat) : Nat → List (List (List Candidate)) → List PatternResult
  | _, [] => []
  | i_a, ga :: rest =>
    canonGraph cands m support_exact support_relaxed i_a 0 ga ++
      canonAll cands m support_exact support_relaxed (i_a + 1) rest

/-- The failing input of claim C3: three vertices `0, 1, 2` where vertex 1 owns
the edge `1 → 2` and vertex 2 owns the edge `2 → 0`; both edges carry the local
id 0 permitted by the spec ("unique within the owning vertex's edge list"). -/
def c3Vertices : List Vertex :=
  [⟨0, 0, 0, []⟩, ⟨1, 0, 0, [Edge.mk 1 2 0 0]⟩, ⟨2, 0, 0, [Edge.mk 2 0 0 0]⟩]

/-- Concrete input of the C6 counterexample: a single-vertex graph. -/
def c6A : Graph := ⟨1, [⟨0, 0, 0, []⟩]⟩

/-- Concrete input of the C6 counterexample: the empty graph. -/
def c6B : Graph := ⟨2, []⟩

/-- All candidates of a collection, in the traversal order of both matcher
variants (graphs in input order, buckets in size order, candidates in
generation order). -/
def allCands (cands : List (List (List Candidate))) : List Candidate :=
  cands.flatten.flatten

/-- The spec invariant "every candidate id is unique across the whole run". -/
def UniqueIds (cands : List (List (List Candidate))) : Prop :=
  ((allCands cands).map fun c => c.graph.id).Nodup

/-- Every input graph carries the same number of size buckets (true of the
generator output, which produces one bucket per `n ∈ [min_n, max_n]` for every
graph). -/
def UniformBuckets (cands : List (List (List Candidate))) : Prop :=
  ∀ g1 ∈ cands, ∀ g2 ∈ cands, g1.length = g2.length

/-- The matcher is symmetric on the candidate collection (spec §8 "matcher
symmetry"; the cache stores one orientation per pair). -/
def SymOn (cands : List (List (List Candidate))) (m : Graph → Graph → MatchingResult) : Prop :=
  ∀ x ∈ allCands cands, ∀ y ∈ allCands cands, m x.graph y.graph = m y.graph x.graph

/-- No cross-candidate pair of the collection matches exactly. -/
def NoExact (cands : List (List (List Candidate))) (m : Graph → Graph → MatchingResult) : Prop :=
  ∀ x ∈ allCands cands, ∀ y ∈ allCands cands, m x.graph y.graph ≠ MatchingResult.ExactMatch

/-- Cache invariant: every stored entry is the matcher value of a candidate
pair of the collection, keyed canonically. -/
def CacheOK (cands : List (List (List Candidate))) (m : Graph → Graph → MatchingResult)
    (c : MatchCache) : Prop :=
  ∀ k r, List.lookup k c = some r →
    ∃ x ∈ allCands cands, ∃ y ∈ allCands cands,
      k = cacheKey x.graph.id y.graph.id ∧ r = m x.graph y.graph

instance {cands : List (List (List Candidate))} {m : Graph → Graph → MatchingResult} :
    Decidable (SymOn cands m) := by
  unfold SymOn
  infer_instance

instance {cands : List (List (List Candidate))} : Decidable (UniqueIds cands) := by
  unfold UniqueIds
  infer_instance

instance {cands : List (List (List Candidate))} : Decidable (UniformBuckets cands) := by
  unfold UniformBuckets
  infer_instance

instance {cands : List (List (List Candidate))} {m : Graph → Graph → MatchingResult} :
    Decidable (NoExact cands m) := by
  unfold NoExact
  infer_instance

/-- A one-vertex graph with a labelled self-loop, used as a witness input. -/
def c5G : Graph := ⟨1, [⟨0, 5, 0, [Edge.mk 0 0 7 0]⟩]⟩

/-- A second empty graph, used as a witness input. -/
def c9B : Graph := ⟨3, []⟩

/-- A one-vertex candidate (graph id 1, label 5). -/
def c1a : Candidate := ⟨⟨1, [⟨0, 5, 0, []⟩]⟩⟩

/-- A two-vertex candidate (graph id 2) with one edge of label 9. -/
def c1b : Candidate := ⟨⟨2, [⟨0, 5, 0, [Edge.mk 0 1 9 0]⟩, ⟨1, 5, 0, []⟩]⟩⟩

/-- Claim C1's failing collection: two input graphs with two size buckets each;
the only candidates sit in *different* size buckets. -/
def c1cands : List (List (List Candidate)) := [[[c1a], []], [[], [c1b]]]

/-- A GED matcher with the default costs and threshold 2. -/
def c1m : Graph → Graph → MatchingResult := matchGraphsGED GEDEditCosts.default1 2

/-- Three pairwise-isomorphic one-vertex candidates with ids 1, 2, 3. -/
def c2d1 : Candidate := ⟨⟨1, [⟨0, 7, 0, []⟩]⟩⟩

def c2d2 : Candidate := ⟨⟨2, [⟨0, 7, 0, []⟩]⟩⟩

def c2d3 : Candidate := ⟨⟨3, [⟨0, 7, 0, []⟩]⟩⟩

/-- Claim C2's failing collection: graph 0 contributes one candidate, graph 1
contributes two candidates that both match it exactly. -/
def c2cands : List (List (List Candidate)) := [[[c2d1]], [[c2d2, c2d3]]]

/-- A matcher that can only report relaxed matches (distance-thresholded GED
without the exact escalation), used to satisfy the no-exact hypothesis of the
amended C2 on a concrete input. -/
def gedRelaxedOnly (ec : GEDEditCosts) (t : Nat) : Graph → Graph → MatchingResult :=
  fun A B => if fast_ged A B ec ≤ t then .RelaxedMatch else .NoMatch

/-- The edit costs of the C8 counterexample: all 1 except `edge_ins = 0`. -/
def c8ec : GEDEditCosts := ⟨1, 1, 1, 1, 0, 1⟩

/-- Three-vertex candidate (id 1) whose third vertex carries self-loops with
labels `[1, 0]`. -/
def c8q : Candidate :=
  ⟨⟨1, [⟨0, 0, 0, []⟩, ⟨1, 0, 0, []⟩, ⟨2, 0, 0, [Edge.mk 2 2 1 0, Edge.mk 2 2 0 1]⟩]⟩⟩

/-- Like `c8q` (id 2) but with the self-loop labels in order `[0, 1]`. -/
def c8p : Candidate :=
  ⟨⟨2, [⟨0, 0, 0, []⟩, ⟨1, 0, 0, []⟩, ⟨2, 0, 0, [Edge.mk 2 2 0 0, Edge.mk 2 2 1 1]⟩]⟩⟩

/-- Three-vertex candidate (id 3) with one label-0 self-loop per vertex. -/
def c8x : Candidate :=
  ⟨⟨3, [⟨0, 0, 0, [Edge.mk 0 0 0 0]⟩, ⟨1, 0, 0, [Edge.mk 1 1 0 0]⟩,
    ⟨2, 0, 0, [Edge.mk 2 2 0 0]⟩]⟩⟩

/-- Claim C8's failing collection: one candidate per input graph. -/
def c8cands : List (List (List Candidate)) := [[[c8q]], [[c8p]], [[c8x]]]

/-- The GED matcher of the C8 counterexample: costs `c8ec`, threshold 0. -/
def c8m : Graph → Graph → MatchingResult := matchGraphsGED c8ec 0

/-- Invariant of the candidate-construction state `(C, mapping)` during phase
two of `buildCandidate` (claim C4): mapped indices are in range, vertices past
the first `n` (the copied activity combination) are object-typed, and every
candidate edge corresponds to a source edge through the mapping. -/
def GenInv (graph : Graph) (ots : List Nat) (n : Nat) (st : Graph × List (Nat × Nat)) : Prop :=
  (∀ s j, List.lookup s st.2 = some j → j < st.1.vertices.length) ∧
  n ≤ st.1.vertices.length ∧
  (∀ j (h : j < st.1.vertices.length), n ≤ j →
    (st.1.vertices.get ⟨j, h⟩).vertex_type ∈ ots) ∧
  (∀ i (hi : i < st.1.vertices.length), ∀ ce ∈ (st.1.vertices.get ⟨i, hi⟩).edges,
    ∃ v ∈ graph.vertices, ∃ e ∈ v.edges,
      List.lookup e.from' st.2 = some i ∧ List.lookup e.to' st.2 = some ce.to' ∧
      e.e_label = ce.e_label)

/-- The property claim C4 asserts of every generated candidate `(C, mapping)`:
it stems from a weakly connected activity combination `comb` of an in-range
size `n`, its vertices beyond the first `n` are object-typed (so
`|C.V| = n + #objects` with `min_n ≤ n ≤ max_n`), and every candidate edge
corresponds through the mapping to a source edge with the same label. -/
def C4Prop (graph : Graph) (t : Nat) (ots : List Nat) (min_n max_n : Nat)
    (cm : Graph × List (Nat × Nat)) : Prop :=
  ∃ n comb, min_n ≤ n ∧ n ≤ max_n ∧ comb.length = n ∧
    (∀ v ∈ comb, v ∈ graph.vertices ∧ v.vertex_type = t) ∧
    weaklyConnected comb ∧
    n ≤ cm.1.vertices.length ∧
    (∀ j (h : j < cm.1.vertices.length), n ≤ j →
      (cm.1.vertices.get ⟨j, h⟩).vertex_type ∈ ots) ∧
    (∀ i (hi : i < cm.1.vertices.length), ∀ ce ∈ (cm.1.vertices.get ⟨i, hi⟩).edges,
      ∃ v ∈ graph.vertices, ∃ e ∈ v.edges,
        List.lookup e.from' cm.2 = some i ∧ List.lookup e.to' cm.2 = some ce.to' ∧
        e.e_label = ce.e_label)

/-- A two-activity-vertex graph with one edge, the witness input of C4/C10. -/
def c4G : Graph := ⟨0, [⟨0, 1, 0, [Edge.mk 0 1 5 0]⟩, ⟨1, 1, 0, []⟩]⟩

/-! ## Theorems -/

/-! ## C3: the connectivity oracle against its contract -/

/-- The step relation is symmetric. -/
theorem stepRel_symm {vs : List Vertex} {a b : Nat} (h : stepRel vs a b) : stepRel vs b a := by
  obtain ⟨ha, hb, v, hv, e, he, hd⟩ := h
  exact ⟨hb, ha, v, hv, e, he, hd.symm⟩

/-- Claim C3 is violated by the code: on `c3Vertices` the induced subgraph is
weakly connected (`0 ←2 2 ←1 1` through the two edges), but
`vertices_are_connected` answers `false`: the first pass fires only `2 → 0`
(edge `1 → 2` is scanned while neither endpoint is visited), and the retain
step then also removes the unfired edge `1 → 2` because it shares the local id
0 with the fired edge, leaving vertex 1 unreachable. -/
theorem c3_code_bug_eval :
    vertices_are_connected c3Vertices = some false ∧ weaklyConnected c3Vertices := by
  constructor
  · decide
  · have h02 : stepRel c3Vertices 0 2 := by
      refine ⟨by decide, by decide, c3Vertices.get ⟨2, by decide⟩, by decide,
        Edge.mk 2 0 0 0, by decide, Or.inr ⟨rfl, rfl⟩⟩
    have h21 : stepRel c3Vertices 2 1 := by
      refine ⟨by decide, by decide, c3Vertices.get ⟨1, by decide⟩, by decide,
        Edge.mk 1 2 0 0, by decide, Or.inr ⟨rfl, rfl⟩⟩
    have r01 : Relation.ReflTransGen (stepRel c3Vertices) 0 1 :=
      Relation.ReflTransGen.head h02 (Relation.ReflTransGen.single h21)
    have r02 : Relation.ReflTransGen (stepRel c3Vertices) 0 2 :=
      Relation.ReflTransGen.single h02
    have r10 : Relation.ReflTransGen (stepRel c3Vertices) 1 0 :=
      Relation.ReflTransGen.head (stepRel_symm h21) (Relation.ReflTransGen.single (stepRel_symm h02))
    have r12 : Relation.ReflTransGen (stepRel c3Vertices) 1 2 :=
      Relation.ReflTransGen.single (stepRel_symm h21)
    have r20 : Relation.ReflTransGen (stepRel c3Vertices) 2 0 :=
      Relation.ReflTransGen.single (stepRel_symm h02)
    have r21 : Relation.ReflTransGen (stepRel c3Vertices) 2 1 :=
      Relation.ReflTransGen.single h21
    intro a ha b hb
    have ha' : a = 0 ∨ a = 1 ∨ a = 2 := by
      simpa [idsOf, c3Vertices] using ha
    have hb' : b = 0 ∨ b = 1 ∨ b = 2 := by
      simpa [idsOf, c3Vertices] using hb
    rcases ha' with rfl | rfl | rfl <;> rcases hb' with rfl | rfl | rfl
    · exact Relation.ReflTransGen.refl
    · exact r01
    · exact r02
    · exact r10
    · exact Relation.ReflTransGen.refl
    · exact r12
    · exact r20
    · exact r21
    · exact Relation.ReflTransGen.refl

/-! ## Well-formedness extraction -/

theorem wfb_getD_id {g : Graph} (h : g.wfb = true) {i : Nat} (hi : i < g.vertices.length) :
    (g.vertices.getD i default).id = i := by
  have h' := (List.all_eq_true.mp h) i (List.mem_range.mpr hi)
  simp only [Bool.and_eq_true, beq_iff_eq] at h'
  exact h'.1

theorem wfb_getD_edge {g : Graph} (h : g.wfb = true) {i : Nat} (hi : i < g.vertices.length)
    {e : Edge} (he : e ∈ (g.vertices.getD i default).edges) :
    e.from' = (g.vertices.getD i default).id ∧ e.to' < g.vertices.length := by
  have h' := (List.all_eq_true.mp h) i (List.mem_range.mpr hi)
  simp only [Bool.and_eq_true, beq_iff_eq, List.all_eq_true] at h'
  have := h'.2 e he
  simpa using this

theorem wfb_mem_edge {g : Graph} (h : g.wfb = true) {v : Vertex} (hv : v ∈ g.vertices)
    {e : Edge} (he : e ∈ v.edges) :
    e.from' = v.id ∧ e.to' < g.vertices.length := by
  obtain ⟨⟨i, hi⟩, rfl⟩ := List.mem_iff_get.mp hv
  have hgd : g.vertices.getD i default = g.vertices.get ⟨i, hi⟩ :=
    List.getD_eq_getElem _ _ hi
  have := @wfb_getD_edge _ h _ hi e (by rw [hgd]; exact he)
  rwa [hgd] at this

/-! ## Minimum-of-list helpers -/

theorem foldl_min_le_init (l : List Nat) (x : Nat) : l.foldl min x ≤ x := by
  induction l generalizing x with
  | nil => exact le_refl x
  | cons a l ih => exact le_trans (ih (min x a)) (min_le_left x a)

theorem foldl_min_le_mem (l : List Nat) (x : Nat) {y : Nat} (h : y ∈ l) :
    l.foldl min x ≤ y := by
  induction l generalizing x with
  | nil => cases h
  | cons a l ih =>
    rcases List.mem_cons.mp h with rfl | h'
    · exact le_trans (foldl_min_le_init l (min x y)) (min_le_right x y)
    · exact ih (min x a) h'

theorem foldl_min_eq_init_or_mem (l : List Nat) (x : Nat) :
    l.foldl min x = x ∨ l.foldl min x ∈ l := by
  induction l generalizing x with
  | nil => exact Or.inl rfl
  | cons a l ih =>
    rcases ih (min x a) with h | h
    · rcases min_choice x a with hx | hx
      · exact Or.inl (by rw [List.foldl_cons, h, hx])
      · exact Or.inr (by rw [List.foldl_cons, h, hx]; exact List.mem_cons_self a l)
    · exact Or.inr (List.mem_cons_of_mem a h)

theorem minOfList_le {l : List Nat} {y : Nat} (h : y ∈ l) : minOfList l ≤ y := by
  cases l with
  | nil => cases h
  | cons x xs =>
    rcases List.mem_cons.mp h with rfl | h'
    · exact foldl_min_le_init xs y
    · exact foldl_min_le_mem xs x h'

theorem minOfList_mem {l : List Nat} (h : l ≠ []) : minOfList l ∈ l := by
  cases l with
  | nil => exact absurd rfl h
  | cons x xs =>
    rcases foldl_min_eq_init_or_mem xs x with h' | h'
    · show List.foldl min x xs ∈ x :: xs
      rw [h']
      exact List.mem_cons_self x xs
    · exact List.mem_cons_of_mem x h'

theorem permutations_ne_nil (l : List Nat) : l.permutations' ≠ [] := by
  intro h
  have hm : l ∈ l.permutations' := List.mem_permutations'.mpr (List.Perm.refl l)
  rw [h] at hm
  exact absurd hm (List.not_mem_nil l)

theorem hungarianMin_le (N : Nat) (cost : Nat → Nat → Nat) {p : List Nat}
    (hp : p ∈ (List.range N).permutations') :
    hungarianMin N cost ≤ permCost N cost p :=
  minOfList_le (List.mem_map_of_mem _ hp)

theorem hungarianMin_attained (N : Nat) (cost : Nat → Nat → Nat) :
    ∃ p ∈ (List.range N).permutations', hungarianMin N cost = permCost N cost p := by
  have hne : (List.range N).permutations'.map (permCost N cost) ≠ [] := by
    simp [List.map_eq_nil_iff, permutations_ne_nil]
  obtain ⟨p, hp, hv⟩ := List.mem_map.mp (minOfList_mem hne)
  exact ⟨p, hp, hv.symm⟩

/-! ## Inverse permutations -/

theorem perm_range_length {N : Nat} {p : List Nat} (hp : List.Perm p (List.range N)) : p.length = N :=
  hp.length_eq.trans (List.length_range N)

theorem perm_range_mem {N : Nat} {p : List Nat} (hp : List.Perm p (List.range N)) {x : Nat} :
    x ∈ p ↔ x < N := by rw [hp.mem_iff, List.mem_range]

theorem perm_range_nodup {N : Nat} {p : List Nat} (hp : List.Perm p (List.range N)) : p.Nodup :=
  hp.nodup_iff.mpr (List.nodup_range N)

theorem perm_range_getD_lt {N : Nat} {p : List Nat} (hp : List.Perm p (List.range N)) {i : Nat}
    (hi : i < N) : p.getD i 0 < N := by
  have hlen : i < p.length := by rw [perm_range_length hp]; exact hi
  have : p.getD i 0 ∈ p := by
    rw [List.getD_eq_getElem _ _ hlen]
    exact List.getElem_mem hlen
  exact (perm_range_mem hp).mp this

theorem perm_range_indexOf_getD {N : Nat} {p : List Nat} (hp : List.Perm p (List.range N)) {i : Nat}
    (hi : i < N) : p.indexOf (p.getD i 0) = i := by
  have hlen : i < p.length := by rw [perm_range_length hp]; exact hi
  have hmem : p.getD i 0 ∈ p := by
    rw [List.getD_eq_getElem _ _ hlen]
    exact List.getElem_mem hlen
  have hidx : p.indexOf (p.getD i 0) < p.length := List.indexOf_lt_length.mpr hmem
  have hget : p.get ⟨p.indexOf (p.getD i 0), hidx⟩ = p.getD i 0 := List.indexOf_get hidx
  have hget2 : p.get ⟨i, hlen⟩ = p.getD i 0 := (List.getD_eq_getElem _ _ hlen).symm
  have := (List.Nodup.get_inj_iff (perm_range_nodup hp)).mp (hget.trans hget2.symm)
  exact congrArg Fin.val this

theorem perm_range_getD_indexOf {N : Nat} {p : List Nat} (hp : List.Perm p (List.range N)) {j : Nat}
    (hj : j < N) : p.getD (p.indexOf j) 0 = j := by
  have hmem : j ∈ p := (perm_range_mem hp).mpr hj
  have hidx : p.indexOf j < p.length := List.indexOf_lt_length.mpr hmem
  rw [List.getD_eq_getElem _ _ hidx]
  exact List.indexOf_get hidx

theorem invPerm_getD {N : Nat} {p : List Nat} {j : Nat} (hj : j < N) :
    (invPerm N p).getD j 0 = p.indexOf j := by
  have hlen : j < ((List.range N).map fun j => p.indexOf j).length := by
    rw [List.length_map, List.length_range]; exact hj
  rw [invPerm, List.getD_eq_getElem _ _ hlen]
  simp [hj]

theorem invPerm_perm {N : Nat} {p : List Nat} (hp : List.Perm p (List.range N)) :
    List.Perm (invPerm N p) (List.range N) := by
  have hnd : (invPerm N p).Nodup := by
    refine List.Nodup.map_on ?_ (List.nodup_range N)
    intro x hx y hy hxy
    have hx' : x < N := List.mem_range.mp hx
    have hy' : y < N := List.mem_range.mp hy
    calc x = p.getD (p.indexOf x) 0 := (perm_range_getD_indexOf hp hx').symm
    _ = p.getD (p.indexOf y) 0 := by rw [hxy]
    _ = y := perm_range_getD_indexOf hp hy'
  rw [List.perm_ext_iff_of_nodup hnd (List.nodup_range N)]
  intro a
  constructor
  · intro ha
    obtain ⟨j, hj, rfl⟩ := List.mem_map.mp ha
    have hj' : j < N := List.mem_range.mp hj
    have : p.indexOf j < p.length :=
      List.indexOf_lt_length.mpr ((perm_range_mem hp).mpr hj')
    rw [List.mem_range]
    rwa [perm_range_length hp] at this
  · intro ha
    have ha' : a < N := List.mem_range.mp ha
    refine List.mem_map.mpr ⟨p.getD a 0, List.mem_range.mpr (perm_range_getD_lt hp ha'), ?_⟩
    exact perm_range_indexOf_getD hp ha'

theorem invPerm_mem_permutations {N : Nat} {p : List Nat}
    (hp : p ∈ (List.range N).permutations') :
    invPerm N p ∈ (List.range N).permutations' :=
  List.mem_permutations'.mpr (invPerm_perm (List.mem_permutations'.mp hp))

theorem permCost_transpose {N : Nat} (cost : Nat → Nat → Nat) {p : List Nat}
    (hp : List.Perm p (List.range N)) :
    permCost N (fun i j => cost j i) p = permCost N cost (invPerm N p) := by
  unfold permCost
  have hR : (∑ j ∈ Finset.range N, cost j ((invPerm N p).getD j 0)) =
      ∑ j ∈ Finset.range N, cost j (p.indexOf j) := by
    refine Finset.sum_congr rfl fun j hj => ?_
    rw [invPerm_getD (Finset.mem_range.mp hj)]
  rw [hR]
  refine Finset.sum_bij' (fun a _ => p.getD a 0) (fun b _ => p.indexOf b) ?_ ?_ ?_ ?_ ?_
  · intro a ha
    exact Finset.mem_range.mpr (perm_range_getD_lt hp (Finset.mem_range.mp ha))
  · intro b hb
    have hb' : b < N := Finset.mem_range.mp hb
    have : p.indexOf b < p.length :=
      List.indexOf_lt_length.mpr ((perm_range_mem hp).mpr hb')
    rw [Finset.mem_range]
    rwa [perm_range_length hp] at this
  · intro a ha
    exact perm_range_indexOf_getD hp (Finset.mem_range.mp ha)
  · intro b hb
    exact perm_range_getD_indexOf hp (Finset.mem_range.mp hb)
  · intro a ha
    rw [perm_range_indexOf_getD hp (Finset.mem_range.mp ha)]

theorem hungarianMin_transpose_le (N : Nat) (cost : Nat → Nat → Nat) :
    hungarianMin N (fun i j => cost j i) ≤ hungarianMin N cost := by
  obtain ⟨p, hp, heq⟩ := hungarianMin_attained N cost
  have h1 : hungarianMin N (fun i j => cost j i) ≤
      permCost N (fun i j => cost j i) (invPerm N p) :=
    hungarianMin_le N _ (invPerm_mem_permutations hp)
  have h2 : permCost N (fun i j => cost j i) (invPerm N p) = permCost N cost p := by
    have hip : List.Perm (invPerm N p) (List.range N) := invPerm_perm (List.mem_permutations'.mp hp)
    have h3 := permCost_transpose (fun i j => cost j i) hip
    have h4 : permCost N cost (invPerm N p) = permCost N cost (invPerm N p) := rfl
    have h5 : permCost N (fun i j => cost j i) (invPerm N p) =
        permCost N (fun i j => cost i j) (invPerm N (invPerm N p)) := by
      simpa using permCost_transpose (fun i j => cost i j) hip
    rw [h5]
    unfold permCost
    refine Finset.sum_congr rfl fun i hi => ?_
    have hi' : i < N := Finset.mem_range.mp hi
    congr 1
    have hval : (invPerm N (invPerm N p)).getD i 0 = (invPerm N p).indexOf i :=
      invPerm_getD hi'
    rw [hval]
    have hip2 : p.getD i 0 < N := perm_range_getD_lt (List.mem_permutations'.mp hp) hi'
    have : (invPerm N p).getD (p.getD i 0) 0 = i := by
      rw [invPerm_getD hip2]
      exact perm_range_indexOf_getD (List.mem_permutations'.mp hp) hi'
    calc (invPerm N p).indexOf i
        = (invPerm N p).indexOf ((invPerm N p).getD (p.getD i 0) 0) := by rw [this]
      _ = p.getD i 0 := perm_range_indexOf_getD hip hip2
  rw [heq]
  exact h1.trans_eq h2

theorem hungarianMin_transpose (N : Nat) (cost : Nat → Nat → Nat) :
    hungarianMin N (fun i j => cost j i) = hungarianMin N cost := by
  refine le_antisymm (hungarianMin_transpose_le N cost) ?_
  have := hungarianMin_transpose_le N (fun i j => cost j i)
  simpa using this

/-! ## GED: self distance and symmetry -/

theorem range_getD {N i : Nat} (h : i < N) : (List.range N).getD i 0 = i := by
  rw [List.getD_eq_getElem _ _ (by simpa using h)]
  simp

theorem zip_self_foldl_eq (c : Nat) (l : List (Nat × Nat)) (acc : Nat) :
    (l.zip l).foldl (fun acc p => if p.1.2 ≠ p.2.2 then acc + c else acc) acc = acc := by
  induction l generalizing acc with
  | nil => rfl
  | cons x l ih =>
    rw [List.zip_cons_cons, List.foldl_cons, if_neg fun hcc => hcc rfl]
    exact ih acc

theorem edge_penalty_self (A : Graph) (i : Nat) (ec : GEDEditCosts) :
    edge_penalty A A i i ec = 0 := by
  unfold edge_penalty
  rw [max_self, min_self, Nat.sub_self, Nat.zero_mul]
  exact zip_self_foldl_eq ec.edge_sub (outEdges A i) 0

theorem gedCell_self (A : Graph) (ec : GEDEditCosts) {i : Nat}
    (hi : i < A.vertices.length) : gedCell A A ec i i = 0 := by
  unfold gedCell
  rw [if_pos ⟨hi, hi⟩, if_pos ⟨rfl, rfl⟩, edge_penalty_self]

theorem fast_ged_self (A : Graph) (ec : GEDEditCosts) : fast_ged A A ec = 0 := by
  have hzero :
      permCost A.vertices.length (gedCell A A ec) (List.range A.vertices.length) = 0 := by
    unfold permCost
    refine Finset.sum_eq_zero fun i hi => ?_
    have hi' : i < A.vertices.length := Finset.mem_range.mp hi
    rw [range_getD hi']
    exact gedCell_self A ec hi'
  have hle : fast_ged A A ec ≤ 0 := by
    unfold fast_ged
    rw [Nat.max_self]
    exact le_of_le_of_eq
      (hungarianMin_le _ _ (List.mem_permutations'.mpr (List.Perm.refl _))) hzero
  exact Nat.le_zero.mp hle

theorem zip_swap_foldl (c : Nat) (l1 l2 : List (Nat × Nat)) (acc : Nat) :
    (l2.zip l1).foldl (fun acc p => if p.1.2 ≠ p.2.2 then acc + c else acc) acc =
      (l1.zip l2).foldl (fun acc p => if p.1.2 ≠ p.2.2 then acc + c else acc) acc := by
  induction l1 generalizing l2 acc with
  | nil => cases l2 <;> rfl
  | cons x l1 ih =>
    cases l2 with
    | nil => rfl
    | cons y l2 =>
      simp only [List.zip_cons_cons, List.foldl_cons]
      rw [show (if y.2 ≠ x.2 then acc + c else acc) = (if x.2 ≠ y.2 then acc + c else acc) from
        if_congr ne_comm rfl rfl]
      exact ih l2 _

theorem edge_penalty_symm (A B : Graph) (i j : Nat) (ec : GEDEditCosts) :
    edge_penalty B A j i ec = edge_penalty A B i j ec := by
  unfold edge_penalty
  rw [Nat.max_comm, Nat.min_comm, zip_swap_foldl]

theorem gedCell_symm (A B : Graph) (ec : GEDEditCosts) (h : ec.node_ins = ec.node_del)
    (i j : Nat) : gedCell B A ec j i = gedCell A B ec i j := by
  unfold gedCell
  by_cases h1 : i < A.vertices.length <;> by_cases h2 : j < B.vertices.length
  · rw [if_pos (show j < B.vertices.length ∧ i < A.vertices.length from ⟨h2, h1⟩),
      if_pos (show i < A.vertices.length ∧ j < B.vertices.length from ⟨h1, h2⟩),
      edge_penalty_symm]
    congr 1
    exact if_congr (and_congr eq_comm eq_comm) rfl rfl
  · simp [h1, h2, h]
  · simp [h1, h2, h]
  · simp [h1, h2]

theorem fast_ged_symm (A B : Graph) (ec : GEDEditCosts) (h : ec.node_ins = ec.node_del) :
    fast_ged B A ec = fast_ged A B ec := by
  unfold fast_ged
  rw [Nat.max_comm]
  have hcell : gedCell B A ec = fun i j => gedCell A B ec j i :=
    funext fun i => funext fun j => gedCell_symm A B ec h j i
  rw [hcell, hungarianMin_transpose]

/-! ## VF2: self isomorphism and symmetry -/

/-- Bridge between the executable `pairListPerm` and `List.Perm`. -/
theorem isPerm_natpair_iff {l1 l2 : List (Nat × Nat)} :
    pairListPerm l1 l2 = true ↔ List.Perm l1 l2 := List.isPerm_iff

theorem isoBy_self {A : Graph} (h : A.wfb = true) :
    isoBy A A (List.range A.vertices.length) = true := by
  rw [isoBy, List.all_eq_true]
  intro i hi
  have hi' : i < A.vertices.length := List.mem_range.mp hi
  rw [range_getD hi']
  have hmem : A.vertices.getD i default ∈ A.vertices := by
    rw [List.getD_eq_getElem _ _ hi']
    exact List.getElem_mem hi'
  have hmap : ((A.vertices.getD i default).edges.map fun e =>
      ((List.range A.vertices.length).getD e.to' 0, e.e_label)) =
      (A.vertices.getD i default).edges.map fun e => (e.to', e.e_label) := by
    refine List.map_congr_left fun e he => ?_
    rw [range_getD (wfb_mem_edge h hmem he).2]
  rw [Bool.and_eq_true, Bool.and_eq_true, Bool.and_eq_true]
  refine ⟨⟨⟨decide_eq_true hi', beq_self_eq_true _⟩, beq_self_eq_true _⟩, ?_⟩
  rw [hmap]
  exact isPerm_natpair_iff.mpr (List.Perm.refl _)

theorem vf2Iso_self {A : Graph} (h : A.wfb = true) : vf2Iso A A = true := by
  rw [vf2Iso, Bool.and_eq_true]
  refine ⟨beq_self_eq_true _, ?_⟩
  rw [List.any_eq_true]
  exact ⟨_, List.mem_permutations'.mpr (List.Perm.refl _), isoBy_self h⟩

theorem isoBy_symm {A B : Graph} (hA : A.wfb = true)
    (hlen : B.vertices.length = A.vertices.length) {p : List Nat}
    (hp : List.Perm p (List.range A.vertices.length)) (h : isoBy A B p = true) :
    isoBy B A (invPerm A.vertices.length p) = true := by
  set N := A.vertices.length with hN
  rw [isoBy, List.all_eq_true]
  intro j hj
  have hj' : j < N := by
    have := List.mem_range.mp hj
    rwa [hlen] at this
  have hidx : p.indexOf j < N := by
    have : p.indexOf j < p.length :=
      List.indexOf_lt_length.mpr ((perm_range_mem hp).mpr hj')
    rwa [perm_range_length hp] at this
  have hq : (invPerm N p).getD j 0 = p.indexOf j := invPerm_getD hj'
  have hpi : p.getD (p.indexOf j) 0 = j := perm_range_getD_indexOf hp hj'
  have hstep := (List.all_eq_true.mp h) (p.indexOf j) (List.mem_range.mpr hidx)
  rw [hpi] at hstep
  simp only [Bool.and_eq_true, beq_iff_eq, decide_eq_true_eq] at hstep
  obtain ⟨⟨⟨hbound, hlab⟩, htype⟩, hperm⟩ := hstep
  rw [hq]
  simp only [Bool.and_eq_true, beq_iff_eq, decide_eq_true_eq]
  refine ⟨⟨⟨hidx, hlab.symm⟩, htype.symm⟩, ?_⟩
  have hperm' := isPerm_natpair_iff.mp hperm
  have hva_mem : A.vertices.getD (p.indexOf j) default ∈ A.vertices := by
    rw [List.getD_eq_getElem _ _ hidx]
    exact List.getElem_mem hidx
  have happ := hperm'.symm.map fun x : Nat × Nat => ((invPerm N p).getD x.1 0, x.2)
  rw [List.map_map, List.map_map] at happ
  have hright :
      ((A.vertices.getD (p.indexOf j) default).edges.map
        ((fun x : Nat × Nat => ((invPerm N p).getD x.1 0, x.2)) ∘
          fun e => (p.getD e.to' 0, e.e_label))) =
      (A.vertices.getD (p.indexOf j) default).edges.map fun e => (e.to', e.e_label) := by
    refine List.map_congr_left fun e he => ?_
    have hto : e.to' < N := (wfb_mem_edge hA hva_mem he).2
    have h1 : p.getD e.to' 0 < N := perm_range_getD_lt hp hto
    simp only [Function.comp_apply]
    rw [invPerm_getD h1, perm_range_indexOf_getD hp hto]
  rw [hright] at happ
  exact isPerm_natpair_iff.mpr happ

theorem vf2Iso_true_symm {A B : Graph} (hA : A.wfb = true) (h : vf2Iso A B = true) :
    vf2Iso B A = true := by
  rw [vf2Iso, Bool.and_eq_true] at h
  obtain ⟨hlen, hany⟩ := h
  have hlen' : A.vertices.length = B.vertices.length := beq_iff_eq.mp hlen
  obtain ⟨p, hp, hiso⟩ := List.any_eq_true.mp hany
  rw [vf2Iso, Bool.and_eq_true]
  refine ⟨beq_iff_eq.mpr hlen'.symm, ?_⟩
  rw [List.any_eq_true]
  refine ⟨invPerm A.vertices.length p, ?_, ?_⟩
  · rw [← hlen']
    exact invPerm_mem_permutations hp
  · exact isoBy_symm hA hlen'.symm (List.mem_permutations'.mp hp) hiso

theorem vf2Iso_symm {A B : Graph} (hA : A.wfb = true) (hB : B.wfb = true) :
    vf2Iso B A = vf2Iso A B := by
  cases hAB : vf2Iso A B with
  | true => exact vf2Iso_true_symm hA hAB
  | false =>
    cases hBA : vf2Iso B A with
    | false => rfl
    | true =>
      have := vf2Iso_true_symm hB hBA
      rw [hAB] at this
      exact absurd this Bool.false_ne_true

/-! ## Matcher-level self-match and symmetry -/

theorem matchGraphsVF2_self {A : Graph} (h : A.wfb = true) :
    matchGraphsVF2 A A = MatchingResult.ExactMatch := by
  rw [matchGraphsVF2, if_pos (vf2Iso_self h)]

theorem matchGraphsGED_self {A : Graph} (h : A.wfb = true) (ec : GEDEditCosts) (t : Nat) :
    matchGraphsGED ec t A A = MatchingResult.ExactMatch := by
  rw [matchGraphsGED, if_pos (fast_ged_self A ec), if_pos (vf2Iso_self h)]

theorem matchGraphsVF2_symm {A B : Graph} (hA : A.wfb = true) (hB : B.wfb = true) :
    matchGraphsVF2 A B = matchGraphsVF2 B A := by
  rw [matchGraphsVF2, matchGraphsVF2, vf2Iso_symm hA hB]

theorem matchGraphsGED_symm {A B : Graph} (hA : A.wfb = true) (hB : B.wfb = true)
    (ec : GEDEditCosts) (t : Nat) (h : ec.node_ins = ec.node_del) :
    matchGraphsGED ec t A B = matchGraphsGED ec t B A := by
  unfold matchGraphsGED
  rw [fast_ged_symm A B ec h, vf2Iso_symm hA hB]

theorem calcCosineSimilarity_symm {κ : Type} [DecidableEq κ] (keys : Finset κ)
    (c1 c2 : κ → Nat) :
    calcCosineSimilarity keys c2 c1 = calcCosineSimilarity keys c1 c2 := by
  have hdot : (∑ k ∈ keys, (c2 k : ℝ) * (c1 k : ℝ)) = ∑ k ∈ keys, (c1 k : ℝ) * (c2 k : ℝ) :=
    Finset.sum_congr rfl fun k _ => mul_comm _ _
  rw [calcCosineSimilarity, calcCosineSimilarity, hdot]
  exact if_congr or_comm rfl (by rw [mul_comm])

theorem graph_cosine_similarity_symm (A B : Graph) (alpha : ℝ) :
    graph_cosine_similarity B A alpha = graph_cosine_similarity A B alpha := by
  unfold graph_cosine_similarity
  rw [Finset.union_comm (vertexKeys B), Finset.union_comm (edgeKeys B),
    calcCosineSimilarity_symm (vertexKeys A ∪ vertexKeys B) (vertexCount A) (vertexCount B),
    calcCosineSimilarity_symm (edgeKeys A ∪ edgeKeys B) (edgeCount A) (edgeCount B)]

theorem matchGraphsCosine_symm {A B : Graph} (hA : A.wfb = true) (hB : B.wfb = true)
    (alpha t : ℝ) : matchGraphsCosine alpha t A B = matchGraphsCosine alpha t B A := by
  unfold matchGraphsCosine
  rw [graph_cosine_similarity_symm, vf2Iso_symm hA hB]

/-! ## C6: matcher symmetry -/

/-- Claim C6 fails as stated: with GED edit costs `node_ins = 2 ≠ 1 = node_del`
and threshold 1, comparing a one-vertex graph with the empty graph gives
distance 1 (one deletion, `RelaxedMatch`) in one direction and distance 2 (one
insertion, `NoMatch`) in the other. -/
theorem c6_counterexample :
    AlgoGraphMatching.match_graphs
        (AlgoGraphMatching.GEDFastHungarian ⟨1, 2, 1, 1, 1, 1⟩ 1) c6A c6B ≠
      AlgoGraphMatching.match_graphs
        (AlgoGraphMatching.GEDFastHungarian ⟨1, 2, 1, 1, 1, 1⟩ 1) c6B c6A := by
  show matchGraphsGED ⟨1, 2, 1, 1, 1, 1⟩ 1 c6A c6B ≠ matchGraphsGED ⟨1, 2, 1, 1, 1, 1⟩ 1 c6B c6A
  decide

/-- Claim C6, amended: `match_graphs(A, B) = match_graphs(B, A)` holds for
well-formed graphs under every CosineSimilarity and VF2 configuration, and
under GEDFastHungarian whenever `node_ins = node_del` (in particular at the
default costs); the counterexample shows it fails for `node_ins ≠ node_del`
when the vertex counts differ. -/
theorem c6_amended :
    (∀ (A B : Graph) (alpha t : ℝ), A.wfb = true → B.wfb = true →
      AlgoGraphMatching.match_graphs (AlgoGraphMatching.CosineSimilarity alpha t) A B =
        AlgoGraphMatching.match_graphs (AlgoGraphMatching.CosineSimilarity alpha t) B A) ∧
    (∀ A B : Graph, A.wfb = true → B.wfb = true →
      AlgoGraphMatching.match_graphs AlgoGraphMatching.VF2IsomorphismTest A B =
        AlgoGraphMatching.match_graphs AlgoGraphMatching.VF2IsomorphismTest B A) ∧
    (∀ (A B : Graph) (ec : GEDEditCosts) (t : Nat), A.wfb = true → B.wfb = true →
      ec.node_ins = ec.node_del →
      AlgoGraphMatching.match_graphs (AlgoGraphMatching.GEDFastHungarian ec t) A B =
        AlgoGraphMatching.match_graphs (AlgoGraphMatching.GEDFastHungarian ec t) B A) := by
  refine ⟨fun A B alpha t hA hB => ?_, fun A B hA hB => ?_, fun A B ec t hA hB h => ?_⟩
  · exact matchGraphsCosine_symm hA hB alpha t
  · exact matchGraphsVF2_symm hA hB
  · exact matchGraphsGED_symm hA hB ec t h

/-- Witness for the amended C6 at concrete inputs. -/
theorem c6_amended_witness :
    AlgoGraphMatching.match_graphs
        (AlgoGraphMatching.GEDFastHungarian GEDEditCosts.default1 1) c6A c6B =
      AlgoGraphMatching.match_graphs
        (AlgoGraphMatching.GEDFastHungarian GEDEditCosts.default1 1) c6B c6A :=
  c6_amended.2.2 c6A c6B GEDEditCosts.default1 1 (by decide) (by decide) rfl

/-! ## Cosine similarity: bounds and self-similarity -/

theorem calcCosineSimilarity_nonneg_le_one {κ : Type} [DecidableEq κ] (keys : Finset κ)
    (c1 c2 : κ → Nat) :
    0 ≤ calcCosineSimilarity keys c1 c2 ∧ calcCosineSimilarity keys c1 c2 ≤ 1 := by
  unfold calcCosineSimilarity
  by_cases h : (∑ k ∈ keys, (c1 k : ℝ) * (c1 k : ℝ)) = 0 ∨
      (∑ k ∈ keys, (c2 k : ℝ) * (c2 k : ℝ)) = 0
  · rw [if_pos h]
    norm_num
  · rw [if_neg h]
    push_neg at h
    have h1nn : 0 ≤ ∑ k ∈ keys, (c1 k : ℝ) * (c1 k : ℝ) :=
      Finset.sum_nonneg fun k _ => mul_self_nonneg _
    have h2nn : 0 ≤ ∑ k ∈ keys, (c2 k : ℝ) * (c2 k : ℝ) :=
      Finset.sum_nonneg fun k _ => mul_self_nonneg _
    have hdotnn : 0 ≤ ∑ k ∈ keys, (c1 k : ℝ) * (c2 k : ℝ) :=
      Finset.sum_nonneg fun k _ => mul_nonneg (Nat.cast_nonneg _) (Nat.cast_nonneg _)
    have hcs : (∑ k ∈ keys, (c1 k : ℝ) * (c2 k : ℝ)) ^ 2 ≤
        (∑ k ∈ keys, (c1 k : ℝ) * (c1 k : ℝ)) * ∑ k ∈ keys, (c2 k : ℝ) * (c2 k : ℝ) := by
      have := Finset.sum_mul_sq_le_sq_mul_sq keys (fun k => (c1 k : ℝ)) fun k => (c2 k : ℝ)
      simpa [pow_two] using this
    have hsqrtpos : 0 < Real.sqrt (∑ k ∈ keys, (c1 k : ℝ) * (c1 k : ℝ)) *
        Real.sqrt (∑ k ∈ keys, (c2 k : ℝ) * (c2 k : ℝ)) := by
      have h1pos : 0 < ∑ k ∈ keys, (c1 k : ℝ) * (c1 k : ℝ) :=
        lt_of_le_of_ne h1nn (Ne.symm h.1)
      have h2pos : 0 < ∑ k ∈ keys, (c2 k : ℝ) * (c2 k : ℝ) :=
        lt_of_le_of_ne h2nn (Ne.symm h.2)
      exact mul_pos (Real.sqrt_pos.mpr h1pos) (Real.sqrt_pos.mpr h2pos)
    refine ⟨div_nonneg hdotnn (le_of_lt hsqrtpos), ?_⟩
    rw [div_le_one hsqrtpos, ← Real.sqrt_mul h1nn]
    exact Real.le_sqrt_of_sq_le hcs

theorem calcCosineSimilarity_self {κ : Type} [DecidableEq κ] (keys : Finset κ) (c : κ → Nat)
    (h : (∑ k ∈ keys, (c k : ℝ) * (c k : ℝ)) ≠ 0) :
    calcCosineSimilarity keys c c = 1 := by
  unfold calcCosineSimilarity
  rw [if_neg (by push_neg; exact ⟨h, h⟩)]
  have hnn : 0 ≤ ∑ k ∈ keys, (c k : ℝ) * (c k : ℝ) :=
    Finset.sum_nonneg fun k _ => mul_self_nonneg _
  rw [Real.mul_self_sqrt hnn]
  exact div_self h

theorem norm_pos_of_witness {κ : Type} [DecidableEq κ] (keys : Finset κ) (c : κ → Nat)
    {k0 : κ} (hk : k0 ∈ keys) (hc : 0 < c k0) :
    0 < ∑ k ∈ keys, (c k : ℝ) * (c k : ℝ) := by
  refine Finset.sum_pos' (fun k _ => mul_self_nonneg _) ⟨k0, hk, ?_⟩
  have h0 : (0 : ℝ) < (c k0 : ℝ) := by exact_mod_cast hc
  exact mul_pos h0 h0

theorem vertexNorm_pos {A : Graph} (h : A.vertices ≠ []) :
    0 < ∑ k ∈ vertexKeys A, (vertexCount A k : ℝ) * (vertexCount A k : ℝ) := by
  obtain ⟨v0, hv0⟩ := List.exists_mem_of_ne_nil _ h
  refine @norm_pos_of_witness _ _ _ _ v0.label ?_ ?_
  · exact List.mem_toFinset.mpr (List.mem_map.mpr ⟨v0, hv0, rfl⟩)
  · unfold vertexCount
    rw [List.length_pos]
    intro hnil
    have : v0 ∈ A.vertices.filter fun v => v.label = v0.label :=
      List.mem_filter.mpr ⟨hv0, by simp⟩
    rw [hnil] at this
    exact absurd this (List.not_mem_nil v0)

theorem edgeSig_mem {A : Graph} (hw : A.wfb = true) {v : Vertex} (hv : v ∈ A.vertices)
    {e : Edge} (he : e ∈ v.edges) :
    ∃ t : Vertex, A.vertices.get? e.to' = some t ∧
      (v.label, v.vertex_type, e.e_label, t.label, t.vertex_type) ∈ edgeSigs A := by
  have hlt : e.to' < A.vertices.length := (wfb_mem_edge hw hv he).2
  have hget : A.vertices.get? e.to' = some (A.vertices.get ⟨e.to', hlt⟩) :=
    List.get?_eq_get hlt
  refine ⟨A.vertices.get ⟨e.to', hlt⟩, hget, ?_⟩
  unfold edgeSigs
  refine List.mem_flatMap.mpr ⟨v, hv, ?_⟩
  refine List.mem_filterMap.mpr ⟨e, he, ?_⟩
  rw [hget]
  rfl

theorem edgeNorm_pos {A : Graph} (hw : A.wfb = true) {v : Vertex} (hv : v ∈ A.vertices)
    (hne : v.edges ≠ []) :
    0 < ∑ k ∈ edgeKeys A, (edgeCount A k : ℝ) * (edgeCount A k : ℝ) := by
  obtain ⟨e, he⟩ := List.exists_mem_of_ne_nil _ hne
  obtain ⟨t, _, hmem⟩ := edgeSig_mem hw hv he
  refine @norm_pos_of_witness _ _ _ _
    (v.label, v.vertex_type, e.e_label, t.label, t.vertex_type) ?_ ?_
  · exact List.mem_toFinset.mpr hmem
  · exact List.count_pos_iff.mpr hmem

theorem graph_cosine_self {A : Graph} (hw : A.wfb = true) (hv : A.vertices ≠ [])
    (he : ∃ v ∈ A.vertices, v.edges ≠ []) (alpha : ℝ) :
    graph_cosine_similarity A A alpha = 1 := by
  obtain ⟨v, hvm, hvne⟩ := he
  unfold graph_cosine_similarity
  rw [Finset.union_self, Finset.union_self,
    calcCosineSimilarity_self _ _ (ne_of_gt (vertexNorm_pos hv)),
    calcCosineSimilarity_self _ _ (ne_of_gt (edgeNorm_pos hw hvm hvne))]
  ring

theorem matchGraphsCosine_self {A : Graph} (hw : A.wfb = true) (hv : A.vertices ≠ [])
    (he : ∃ v ∈ A.vertices, v.edges ≠ []) (alpha t : ℝ) :
    matchGraphsCosine alpha t A A = MatchingResult.ExactMatch := by
  unfold matchGraphsCosine
  rw [graph_cosine_self hw hv he alpha,
    if_pos (show (1 : ℝ) ≥ 1 - EPS by rw [EPS]; norm_num), if_pos (vf2Iso_self hw)]

theorem calcCosineSimilarity_empty {κ : Type} [DecidableEq κ] (c1 c2 : κ → Nat) :
    calcCosineSimilarity (∅ : Finset κ) c1 c2 = 0 := by
  unfold calcCosineSimilarity
  rw [if_pos (Or.inl (Finset.sum_empty))]

/-- On the single-vertex graph the combined cosine similarity with itself is
`alpha * 1 + (1 - alpha) * 0`; at `alpha = 1/2` it is `1/2`. -/
theorem cosine_c6A_half : graph_cosine_similarity c6A c6A (1 / 2) = 1 / 2 := by
  have hedge : edgeKeys c6A = (∅ : Finset EdgeSig) := rfl
  unfold graph_cosine_similarity
  rw [Finset.union_self, Finset.union_self, hedge, calcCosineSimilarity_empty,
    calcCosineSimilarity_self _ _ (ne_of_gt (vertexNorm_pos (by decide)))]
  norm_num

/-- Every empty-vs-empty cosine comparison yields similarity 0. -/
theorem cosine_empty_zero {A B : Graph} (hA : A.vertices = []) (hB : B.vertices = [])
    (alpha : ℝ) : graph_cosine_similarity A B alpha = 0 := by
  have hvA : vertexKeys A = ∅ := by simp [vertexKeys, hA]
  have hvB : vertexKeys B = ∅ := by simp [vertexKeys, hB]
  have heA : edgeKeys A = ∅ := by simp [edgeKeys, edgeSigs, hA]
  have heB : edgeKeys B = ∅ := by simp [edgeKeys, edgeSigs, hB]
  unfold graph_cosine_similarity
  rw [hvA, hvB, heA, heB, Finset.union_self, Finset.union_self,
    calcCosineSimilarity_empty, calcCosineSimilarity_empty]
  ring

/-- VF2 accepts a pair of empty graphs (the empty bijection). -/
theorem vf2Iso_empty {A B : Graph} (hA : A.vertices = []) (hB : B.vertices = []) :
    vf2Iso A B = true := by
  simp [vf2Iso, isoBy, hA, hB]

/-- GED distance between empty graphs is 0 (empty cost matrix). -/
theorem fast_ged_empty {A B : Graph} (hA : A.vertices = []) (hB : B.vertices = [])
    (ec : GEDEditCosts) : fast_ged A B ec = 0 := by
  unfold fast_ged
  rw [hA, hB]
  rfl

/-! ## C5: match(A, A) under every matcher variant -/

/-- Claim C5 fails as stated: for the CosineSimilarity variant with
`alpha = 1/2` and `tau = 1/2` (both inside the claimed ranges), the
single-vertex graph compared with itself has combined similarity `1/2`
(the edge histogram is empty so the edge-side similarity is 0), which does not
reach the escalation band, so the result is `RelaxedMatch`, not `ExactMatch`. -/
theorem c5_counterexample :
    AlgoGraphMatching.match_graphs
        (AlgoGraphMatching.CosineSimilarity (1 / 2) (1 / 2)) c6A c6A ≠
      MatchingResult.ExactMatch := by
  show matchGraphsCosine (1 / 2) (1 / 2) c6A c6A ≠ MatchingResult.ExactMatch
  unfold matchGraphsCosine
  rw [cosine_c6A_half, if_neg (by rw [EPS]; norm_num), if_pos (le_refl _)]
  decide

/-- Claim C5, amended: `match_graphs(A, A) = ExactMatch` holds for well-formed
graphs under the VF2 variant and under GED with every cost configuration and
threshold; under CosineSimilarity it additionally requires `A` to have at
least one vertex and at least one edge (otherwise one of the two histogram
similarities is 0 and the combined similarity can stay below the escalation
band, as the counterexample shows). -/
theorem c5_amended :
    (∀ A : Graph, A.wfb = true →
      AlgoGraphMatching.match_graphs AlgoGraphMatching.VF2IsomorphismTest A A =
        MatchingResult.ExactMatch) ∧
    (∀ (A : Graph) (ec : GEDEditCosts) (t : Nat), A.wfb = true →
      AlgoGraphMatching.match_graphs (AlgoGraphMatching.GEDFastHungarian ec t) A A =
        MatchingResult.ExactMatch) ∧
    (∀ (A : Graph) (alpha t : ℝ), A.wfb = true → A.vertices ≠ [] →
      (∃ v ∈ A.vertices, v.edges ≠ []) →
      AlgoGraphMatching.match_graphs (AlgoGraphMatching.CosineSimilarity alpha t) A A =
        MatchingResult.ExactMatch) := by
  refine ⟨fun A hw => ?_, fun A ec t hw => ?_, fun A alpha t hw hv he => ?_⟩
  · exact matchGraphsVF2_self hw
  · exact matchGraphsGED_self hw ec t
  · exact matchGraphsCosine_self hw hv he alpha t

/-- Witness for the amended C5 at a concrete one-vertex self-loop graph. -/
theorem c5_amended_witness :
    AlgoGraphMatching.match_graphs (AlgoGraphMatching.CosineSimilarity (1 / 2) (1 / 2))
        c5G c5G = MatchingResult.ExactMatch ∧
    AlgoGraphMatching.match_graphs (AlgoGraphMatching.GEDFastHungarian
        GEDEditCosts.default1 1) c5G c5G = MatchingResult.ExactMatch :=
  ⟨c5_amended.2.2 c5G (1 / 2) (1 / 2) (by decide) (by decide)
      ⟨⟨0, 5, 0, [Edge.mk 0 0 7 0]⟩, by decide, by decide⟩,
    c5_amended.2.1 c5G GEDEditCosts.default1 1 (by decide)⟩

/-! ## C7: cosine similarity bounds and self-similarity -/

/-- Claim C7 fails in its second half: the single-vertex graph is non-empty,
yet its self-similarity at `alpha = 1/2` is `1/2`, not 1 (the edge histogram is
empty, so the edge side contributes 0). -/
theorem c7_counterexample :
    c6A.vertices ≠ [] ∧ (1 / 2 : ℝ) ∈ Set.Icc (0 : ℝ) 1 ∧
      graph_cosine_similarity c6A c6A (1 / 2) ≠ 1 := by
  refine ⟨by decide, by constructor <;> norm_num, ?_⟩
  rw [cosine_c6A_half]
  norm_num

/-- Claim C7, amended: for every pair of graphs and `alpha ∈ [0,1]` the
combined similarity lies in `[0,1]`; the self-similarity equals 1 for every
well-formed graph with at least one vertex *and at least one edge* (the
counterexample shows non-empty alone does not suffice). -/
theorem c7_amended :
    (∀ (A B : Graph) (alpha : ℝ), 0 ≤ alpha → alpha ≤ 1 →
      0 ≤ graph_cosine_similarity A B alpha ∧ graph_cosine_similarity A B alpha ≤ 1) ∧
    (∀ A : Graph, A.wfb = true → A.vertices ≠ [] → (∃ v ∈ A.vertices, v.edges ≠ []) →
      ∀ alpha : ℝ, graph_cosine_similarity A A alpha = 1) := by
  constructor
  · intro A B alpha h0 h1
    obtain ⟨hv0, hv1⟩ := calcCosineSimilarity_nonneg_le_one
      (vertexKeys A ∪ vertexKeys B) (vertexCount A) (vertexCount B)
    obtain ⟨he0, he1⟩ := calcCosineSimilarity_nonneg_le_one
      (edgeKeys A ∪ edgeKeys B) (edgeCount A) (edgeCount B)
    unfold graph_cosine_similarity
    constructor
    · have := mul_nonneg h0 hv0
      have := mul_nonneg (by linarith : (0 : ℝ) ≤ 1 - alpha) he0
      linarith
    · nlinarith
  · intro A hw hv he alpha
    exact graph_cosine_self hw hv he alpha

/-- Witness for the amended C7 at concrete inputs. -/
theorem c7_amended_witness :
    (0 ≤ graph_cosine_similarity c6A c6B (1 / 2) ∧
      graph_cosine_similarity c6A c6B (1 / 2) ≤ 1) ∧
    graph_cosine_similarity c5G c5G (1 / 2) = 1 :=
  ⟨c7_amended.1 c6A c6B (1 / 2) (by norm_num) (by norm_num),
    c7_amended.2 c5G (by decide) (by decide)
      ⟨⟨0, 5, 0, [Edge.mk 0 0 7 0]⟩, by decide, by decide⟩ (1 / 2)⟩

/-! ## C9: behaviour on empty graphs -/

/-- Claim C9 fails at `tau = 0` (which the claim includes, `tau ∈ [0,1]`): for
two empty graphs the similarity is 0 and `0 ≥ tau` holds, so the cosine
matcher answers `RelaxedMatch`, not `NoMatch`. -/
theorem c9_counterexample :
    (0 : ℝ) ∈ Set.Icc (0 : ℝ) 1 ∧
      AlgoGraphMatching.match_graphs (AlgoGraphMatching.CosineSimilarity (1 / 2) 0)
        c6B c6B = MatchingResult.RelaxedMatch := by
  refine ⟨by constructor <;> norm_num, ?_⟩
  show matchGraphsCosine (1 / 2) 0 c6B c6B = MatchingResult.RelaxedMatch
  unfold matchGraphsCosine
  rw [cosine_empty_zero rfl rfl, if_neg (by rw [EPS]; norm_num), if_pos (le_refl _)]

/-- Claim C9, amended: on two empty graphs the cosine similarity is 0 and the
cosine matcher answers `NoMatch` for every positive threshold (at `tau = 0` it
answers `RelaxedMatch`); GED yields distance 0 and, via the VF2 escalation,
`ExactMatch`. -/
theorem c9_amended :
    (∀ A B : Graph, A.vertices = [] → B.vertices = [] → ∀ alpha : ℝ,
      graph_cosine_similarity A B alpha = 0) ∧
    (∀ A B : Graph, A.vertices = [] → B.vertices = [] → ∀ alpha t : ℝ, 0 < t →
      AlgoGraphMatching.match_graphs (AlgoGraphMatching.CosineSimilarity alpha t) A B =
        MatchingResult.NoMatch) ∧
    (∀ A B : Graph, A.vertices = [] → B.vertices = [] → ∀ alpha : ℝ,
      AlgoGraphMatching.match_graphs (AlgoGraphMatching.CosineSimilarity alpha 0) A B =
        MatchingResult.RelaxedMatch) ∧
    (∀ A B : Graph, A.vertices = [] → B.vertices = [] → ∀ (ec : GEDEditCosts) (t : Nat),
      fast_ged A B ec = 0 ∧
        AlgoGraphMatching.match_graphs (AlgoGraphMatching.GEDFastHungarian ec t) A B =
          MatchingResult.ExactMatch) := by
  refine ⟨fun A B hA hB alpha => cosine_empty_zero hA hB alpha,
    fun A B hA hB alpha t ht => ?_, fun A B hA hB alpha => ?_, fun A B hA hB ec t => ?_⟩
  · show matchGraphsCosine alpha t A B = MatchingResult.NoMatch
    unfold matchGraphsCosine
    rw [cosine_empty_zero hA hB, if_neg (by rw [EPS]; norm_num), if_neg (not_le.mpr ht)]
  · show matchGraphsCosine alpha 0 A B = MatchingResult.RelaxedMatch
    unfold matchGraphsCosine
    rw [cosine_empty_zero hA hB, if_neg (by rw [EPS]; norm_num), if_pos (le_refl _)]
  · refine ⟨fast_ged_empty hA hB ec, ?_⟩
    show matchGraphsGED ec t A B = MatchingResult.ExactMatch
    rw [matchGraphsGED, if_pos (fast_ged_empty hA hB ec), if_pos (vf2Iso_empty hA hB)]

/-- Witness for the amended C9 on a concrete pair of empty graphs. -/
theorem c9_amended_witness :
    AlgoGraphMatching.match_graphs (AlgoGraphMatching.CosineSimilarity (1 / 2) (1 / 2))
        c6B c9B = MatchingResult.NoMatch ∧
    AlgoGraphMatching.match_graphs
        (AlgoGraphMatching.GEDFastHungarian GEDEditCosts.default1 1) c6B c9B =
      MatchingResult.ExactMatch :=
  ⟨c9_amended.2.1 c6B c9B rfl rfl (1 / 2) (1 / 2) (by norm_num),
    (c9_amended.2.2.2 c6B c9B rfl rfl GEDEditCosts.default1 1).2⟩

/-! ## Candidate matcher: cache correctness -/

/-- A lookup that succeeds on the first part of an appended cache ignores the
second part. -/
theorem lookup_append_some {α β : Type} [BEq α] {k : α} {v : β}
    {l1 l2 : List (α × β)} (h : List.lookup k l1 = some v) :
    List.lookup k (l1 ++ l2) = some v := by
  induction l1 with
  | nil => simp [List.lookup] at h
  | cons p rest ih =>
    rw [List.cons_append, List.lookup]
    rw [List.lookup] at h
    cases hk : k == p.1 with
    | true => rw [hk] at h; simpa using h
    | false => rw [hk] at h; simpa using ih h

/-- A lookup that fails on the first part of an appended cache falls through to
the second part. -/
theorem lookup_append_none {α β : Type} [BEq α] {k : α}
    {l1 l2 : List (α × β)} (h : List.lookup k l1 = none) :
    List.lookup k (l1 ++ l2) = List.lookup k l2 := by
  induction l1 with
  | nil => simp
  | cons p rest ih =>
    rw [List.cons_append, List.lookup]
    rw [List.lookup] at h
    cases hk : k == p.1 with
    | true => rw [hk] at h; simp at h
    | false => rw [hk] at h; simpa using ih h

/-- Two equal canonical cache keys come from the same unordered id pair. -/
theorem cacheKey_eq_cases {i j k l : Nat} (h : cacheKey i j = cacheKey k l) :
    (i = k ∧ j = l) ∨ (i = l ∧ j = k) := by
  unfold cacheKey at h
  split_ifs at h <;> simp only [Prod.mk.injEq] at h <;> omega

/-- Under `UniqueIds`, a candidate of the collection is determined by its
graph id. -/
theorem uniqueIds_inj {cands : List (List (List Candidate))} (h : UniqueIds cands)
    {x y : Candidate} (hx : x ∈ allCands cands) (hy : y ∈ allCands cands)
    (hid : x.graph.id = y.graph.id) : x = y :=
  List.inj_on_of_nodup_map h hx hy hid

/-- `cacheGetOrInsert` returns the matcher value of the pair and preserves the
cache invariant, whenever the matcher is symmetric on the collection and ids
are unique. -/
theorem cacheGetOrInsert_spec {cands : List (List (List Candidate))}
    {m : Graph → Graph → MatchingResult} (hsym : SymOn cands m) (huniq : UniqueIds cands)
    {a b : Candidate} (ha : a ∈ allCands cands) (hb : b ∈ allCands cands)
    {c : MatchCache} (hC : CacheOK cands m c) :
    (cacheGetOrInsert m a b c).1 = m a.graph b.graph ∧
      CacheOK cands m (cacheGetOrInsert m a b c).2 := by
  simp only [cacheGetOrInsert]
  cases hlook : List.lookup (cacheKey a.graph.id b.graph.id) c with
  | some r =>
    refine ⟨?_, hC⟩
    obtain ⟨x, hx, y, hy, hk, hr⟩ := hC _ _ hlook
    rcases cacheKey_eq_cases hk.symm with ⟨h1, h2⟩ | ⟨h1, h2⟩
    · have hxa : x = a := uniqueIds_inj huniq hx ha h1
      have hyb : y = b := uniqueIds_inj huniq hy hb h2
      simp [hr, hxa, hyb]
    · have hxb : x = b := uniqueIds_inj huniq hx hb h1
      have hya : y = a := uniqueIds_inj huniq hy ha h2
      simp only [hr, hxb, hya]
      exact (hsym a ha b hb).symm
  | none =>
    refine ⟨rfl, ?_⟩
    intro k r hkr
    simp only at hkr
    cases hk1 : List.lookup k c with
    | some r' =>
      rw [lookup_append_some hk1] at hkr
      exact hC _ _ (hk1.trans (congrArg some (Option.some.injEq _ _ ▸ hkr)))
    | none =>
      rw [lookup_append_none hk1] at hkr
      rw [List.lookup] at hkr
      cases hkk : k == cacheKey a.graph.id b.graph.id with
      | false => rw [hkk] at hkr; simp at hkr
      | true =>
        rw [hkk] at hkr
        simp only [Option.some.injEq] at hkr
        exact ⟨a, ha, b, hb, eq_of_beq hkk, hkr.symm⟩

/-- Constant-folded boolean comparisons of match results. -/
theorem mrbeq_ee : (MatchingResult.ExactMatch == MatchingResult.ExactMatch) = true := rfl

theorem mrbeq_re : (MatchingResult.RelaxedMatch == MatchingResult.ExactMatch) = false := rfl

theorem mrbeq_ne : (MatchingResult.NoMatch == MatchingResult.ExactMatch) = false := rfl

theorem mrbeq_er : (MatchingResult.ExactMatch == MatchingResult.RelaxedMatch) = false := rfl

theorem mrbeq_rr : (MatchingResult.RelaxedMatch == MatchingResult.RelaxedMatch) = true := rfl

theorem mrbeq_nr : (MatchingResult.NoMatch == MatchingResult.RelaxedMatch) = false := rfl

/-- The parallel bucket scan sets the two flags to "an exact partner exists in
the bucket" and "a relaxed partner exists in the bucket", and preserves the
cache invariant. -/
theorem scanBucketP_spec {cands : List (List (List Candidate))}
    {m : Graph → Graph → MatchingResult} (hsym : SymOn cands m) (huniq : UniqueIds cands)
    {a : Candidate} (ha : a ∈ allCands cands) :
    ∀ (bucket : List Candidate), (∀ b ∈ bucket, b ∈ allCands cands) →
    ∀ (ex rel : Bool) (c : MatchCache), CacheOK cands m c →
    ∃ c', scanBucketP m a bucket ex rel c =
        ((ex || bucket.any fun b => m a.graph b.graph == MatchingResult.ExactMatch),
         (rel || bucket.any fun b => m a.graph b.graph == MatchingResult.RelaxedMatch),
         c') ∧
      CacheOK cands m c' := by
  intro bucket
  induction bucket with
  | nil => intro _ ex rel c hC; exact ⟨c, by simp [scanBucketP], hC⟩
  | cons b rest ih =>
    intro hbm ex rel c hC
    have hb : b ∈ allCands cands := hbm b (List.mem_cons_self b rest)
    have hrm : ∀ x ∈ rest, x ∈ allCands cands := fun x hx => hbm x (List.mem_cons_of_mem b hx)
    obtain ⟨hval, hC2⟩ := cacheGetOrInsert_spec hsym huniq ha hb hC
    rw [scanBucketP]
    cases hcase : m a.graph b.graph with
    | ExactMatch =>
      rw [hval, hcase]
      obtain ⟨c', heq, hC'⟩ := ih hrm true rel (cacheGetOrInsert m a b c).2 hC2
      exact ⟨c', by
        rw [heq]
        simp [hcase, mrbeq_ee, mrbeq_re, mrbeq_ne, mrbeq_er, mrbeq_rr, mrbeq_nr], hC'⟩
    | RelaxedMatch =>
      rw [hval, hcase]
      obtain ⟨c', heq, hC'⟩ := ih hrm ex true (cacheGetOrInsert m a b c).2 hC2
      exact ⟨c', by
        rw [heq]
        simp [hcase, mrbeq_ee, mrbeq_re, mrbeq_ne, mrbeq_er, mrbeq_rr, mrbeq_nr], hC'⟩
    | NoMatch =>
      rw [hval, hcase]
      obtain ⟨c', heq, hC'⟩ := ih hrm ex rel (cacheGetOrInsert m a b c).2 hC2
      exact ⟨c', by
        rw [heq]
        simp [hcase, mrbeq_ee, mrbeq_re, mrbeq_ne, mrbeq_er, mrbeq_rr, mrbeq_nr], hC'⟩

/-- `List.any` of a pointwise disjunction splits into a disjunction of
`List.any`s. -/
theorem any_or_split {α : Type} (l : List α) (p q : α → Bool) :
    (l.any fun x => p x || q x) = (l.any p || l.any q) := by
  induction l with
  | nil => rfl
  | cons x l ih =>
    simp only [List.any_cons, ih]
    cases p x <;> cases q x <;> simp

/-- `getD` through a successful `get?`. -/
theorem getD_of_get? {α : Type} {l : List α} {n : Nat} {x : α} (d : α)
    (h : l.get? n = some x) : l.getD n d = x := by
  rw [List.getD_eq_getElem?_getD, ← List.get?_eq_getElem?, h]
  rfl

/-- `countContrib` skips the graph at the candidate's own index. -/
theorem countContrib_cons_skip {m : Graph → Graph → MatchingResult} {i_a i_n : Nat}
    {a : Candidate} {eo : Bool} {i_b : Nat} {gb : List (List Candidate)}
    {rest : List (List (List Candidate))} (hia : i_b = i_a) :
    countContrib m i_a i_n a eo i_b (gb :: rest) =
      countContrib m i_a i_n a eo (i_b + 1) rest := by
  simp only [countContrib]
  rw [if_pos hia]

/-- Head unfolding of the exact-contribution count at a non-self graph. -/
theorem countContrib_cons_exact {m : Graph → Graph → MatchingResult} {i_a i_n : Nat}
    {a : Candidate} {i_b : Nat} {gb : List (List Candidate)}
    {rest : List (List (List Candidate))} {bucket : List Candidate}
    (hia : ¬ i_b = i_a) (hget : gb.get? i_n = some bucket) :
    countContrib m i_a i_n a true i_b (gb :: rest) =
      countContrib m i_a i_n a true (i_b + 1) rest +
        (if bucket.any (fun b => m a.graph b.graph == MatchingResult.ExactMatch)
         then 1 else 0) := by
  simp only [countContrib]
  rw [if_neg hia, getD_of_get? [] hget]
  simp only [Bool.not_true, Bool.false_and, Bool.or_false]
  cases bucket.any fun b => m a.graph b.graph == MatchingResult.ExactMatch <;> simp

/-- Head unfolding of the relaxed-contribution count at a non-self graph. -/
theorem countContrib_cons_rel {m : Graph → Graph → MatchingResult} {i_a i_n : Nat}
    {a : Candidate} {i_b : Nat} {gb : List (List Candidate)}
    {rest : List (List (List Candidate))} {bucket : List Candidate}
    (hia : ¬ i_b = i_a) (hget : gb.get? i_n = some bucket) :
    countContrib m i_a i_n a false i_b (gb :: rest) =
      countContrib m i_a i_n a false (i_b + 1) rest +
        (if (bucket.any fun b => m a.graph b.graph == MatchingResult.ExactMatch) ||
            (bucket.any fun b => m a.graph b.graph == MatchingResult.RelaxedMatch)
         then 1 else 0) := by
  simp only [countContrib]
  rw [if_neg hia, getD_of_get? [] hget]
  simp only [Bool.not_false, Bool.true_and]
  rw [any_or_split]
  cases (bucket.any fun b => m a.graph b.graph == MatchingResult.ExactMatch) ||
      (bucket.any fun b => m a.graph b.graph == MatchingResult.RelaxedMatch) <;> simp

/-- The parallel other-graphs loop adds exactly the per-graph contribution
counts to both frequencies, never fails when every remaining graph has the
scanned size bucket, and preserves the cache invariant. -/
theorem processOthersP_spec {cands : List (List (List Candidate))}
    {m : Graph → Graph → MatchingResult} (hsym : SymOn cands m) (huniq : UniqueIds cands)
    {i_a i_n : Nat} {a : Candidate} (ha : a ∈ allCands cands) :
    ∀ (rest : List (List (List Candidate))) (i_b : Nat),
      (∀ gb ∈ rest, gb ∈ cands) → (∀ gb ∈ rest, i_n < gb.length) →
    ∀ (fe fr : Nat) (c : MatchCache), CacheOK cands m c →
    ∃ c', processOthersP m i_a i_n a i_b rest (fe, fr, c) =
        some (fe + countContrib m i_a i_n a true i_b rest,
          fr + countContrib m i_a i_n a false i_b rest, c') ∧
      CacheOK cands m c' := by
  intro rest
  induction rest with
  | nil =>
    intro i_b _ _ fe fr c hC
    exact ⟨c, by simp [processOthersP, countContrib], hC⟩
  | cons gb rest ih =>
    intro i_b hrm hbl fe fr c hC
    have hgb : gb ∈ cands := hrm gb (List.mem_cons_self gb rest)
    have hrm' : ∀ x ∈ rest, x ∈ cands := fun x hx => hrm x (List.mem_cons_of_mem gb hx)
    have hbl' : ∀ x ∈ rest, i_n < x.length := fun x hx => hbl x (List.mem_cons_of_mem gb hx)
    by_cases hia : i_b = i_a
    · obtain ⟨c', heq, hC'⟩ := ih (i_b + 1) hrm' hbl' fe fr c hC
      refine ⟨c', ?_, hC'⟩
      rw [processOthersP, if_pos hia, heq, countContrib_cons_skip hia,
        countContrib_cons_skip hia]
    · cases hget : gb.get? i_n with
      | none =>
        exact absurd hget
          (by rw [List.get?_eq_get (hbl gb (List.mem_cons_self gb rest))]; simp)
      | some bucket =>
        have hbmem : bucket ∈ gb := List.get?_mem hget
        have hbm : ∀ b ∈ bucket, b ∈ allCands cands := fun b hb =>
          List.mem_flatten.mpr ⟨bucket, List.mem_flatten.mpr ⟨gb, hgb, hbmem⟩, hb⟩
        obtain ⟨c1, hscan, hC1⟩ := scanBucketP_spec hsym huniq ha bucket hbm false false c hC
        rw [Bool.false_or, Bool.false_or] at hscan
        cases hE : bucket.any fun b => m a.graph b.graph == MatchingResult.ExactMatch with
        | true =>
          rw [hE] at hscan
          obtain ⟨c', heq, hC'⟩ := ih (i_b + 1) hrm' hbl' (fe + 1) (fr + 1) c1 hC1
          refine ⟨c', ?_, hC'⟩
          simp only [processOthersP, if_neg hia, hget]
          rw [hscan]
          show processOthersP m i_a i_n a (i_b + 1) rest (fe + 1, fr + 1, c1) = _
          rw [heq, countContrib_cons_exact hia hget, countContrib_cons_rel hia hget, hE,
            Bool.true_or]
          simp <;> omega
        | false =>
          rw [hE] at hscan
          cases hR : bucket.any fun b => m a.graph b.graph == MatchingResult.RelaxedMatch with
          | true =>
            rw [hR] at hscan
            obtain ⟨c', heq, hC'⟩ := ih (i_b + 1) hrm' hbl' fe (fr + 1) c1 hC1
            refine ⟨c', ?_, hC'⟩
            simp only [processOthersP, if_neg hia, hget]
            rw [hscan]
            show processOthersP m i_a i_n a (i_b + 1) rest (fe, fr + 1, c1) = _
            rw [heq, countContrib_cons_exact hia hget, countContrib_cons_rel hia hget, hE,
              hR, Bool.false_or]
            simp <;> omega
          | false =>
            rw [hR] at hscan
            obtain ⟨c', heq, hC'⟩ := ih (i_b + 1) hrm' hbl' fe fr c1 hC1
            refine ⟨c', ?_, hC'⟩
            simp only [processOthersP, if_neg hia, hget]
            rw [hscan]
            show processOthersP m i_a i_n a (i_b + 1) rest (fe, fr, c1) = _
            rw [heq, countContrib_cons_exact hia hget, countContrib_cons_rel hia hget, hE,
              hR, Bool.false_or]
            simp <;> omega

/-- The empty cache satisfies the cache invariant. -/
theorem cacheOK_nil {cands : List (List (List Candidate))}
    {m : Graph → Graph → MatchingResult} : CacheOK cands m [] := by
  intro k r h
  simp [List.lookup] at h

/-- The parallel per-bucket candidate loop produces exactly the canonical
survivor segment of the bucket, appended to the accumulator. -/
theorem runBucketP_spec {cands : List (List (List Candidate))}
    {m : Graph → Graph → MatchingResult} (hsym : SymOn cands m) (huniq : UniqueIds cands)
    {se sr i_a i_n : Nat} (hcl : ∀ gb ∈ cands, i_n < gb.length) :
    ∀ (bucket : List Candidate), (∀ b ∈ bucket, b ∈ allCands cands) →
    ∀ (res : List PatternResult) (c : MatchCache), CacheOK cands m c →
    ∃ c', runBucketP cands m se sr i_a i_n bucket (res, c) =
        some (res ++ canonBucket cands m se sr i_a i_n bucket, c') ∧
      CacheOK cands m c' := by
  intro bucket
  induction bucket with
  | nil =>
    intro _ res c hC
    exact ⟨c, by simp [runBucketP, canonBucket], hC⟩
  | cons a rest ih =>
    intro hbm res c hC
    have ha : a ∈ allCands cands := hbm a (List.mem_cons_self a rest)
    have hrm : ∀ x ∈ rest, x ∈ allCands cands := fun x hx => hbm x (List.mem_cons_of_mem a hx)
    obtain ⟨c1, hpo, hC1⟩ :=
      processOthersP_spec hsym huniq ha cands 0 (fun gb h => h) hcl 1 1 c hC
    by_cases hemit : se ≤ 1 + countContrib m i_a i_n a true 0 cands ∨
        sr ≤ 1 + countContrib m i_a i_n a false 0 cands
    · obtain ⟨c', heq, hC'⟩ := ih hrm
        (res ++ [⟨a.graph, 1 + countContrib m i_a i_n a true 0 cands,
          1 + countContrib m i_a i_n a false 0 cands⟩]) c1 hC1
      refine ⟨c', ?_, hC'⟩
      simp only [runBucketP]
      rw [hpo]
      show runBucketP cands m se sr i_a i_n rest
          (if se ≤ 1 + countContrib m i_a i_n a true 0 cands ∨
              sr ≤ 1 + countContrib m i_a i_n a false 0 cands
           then (res ++ [⟨a.graph, 1 + countContrib m i_a i_n a true 0 cands,
              1 + countContrib m i_a i_n a false 0 cands⟩], c1)
           else (res, c1)) = _
      rw [if_pos hemit, heq]
      simp only [canonBucket]
      rw [if_pos hemit, List.append_assoc]
    · obtain ⟨c', heq, hC'⟩ := ih hrm res c1 hC1
      refine ⟨c', ?_, hC'⟩
      simp only [runBucketP]
      rw [hpo]
      show runBucketP cands m se sr i_a i_n rest
          (if se ≤ 1 + countContrib m i_a i_n a true 0 cands ∨
              sr ≤ 1 + countContrib m i_a i_n a false 0 cands
           then (res ++ [⟨a.graph, 1 + countContrib m i_a i_n a true 0 cands,
              1 + countContrib m i_a i_n a false 0 cands⟩], c1)
           else (res, c1)) = _
      rw [if_neg hemit, heq]
      simp only [canonBucket]
      rw [if_neg hemit, List.nil_append]

/-- The parallel per-graph bucket loop produces the canonical survivor segment
of the graph. -/
theorem runGraphP_spec {cands : List (List (List Candidate))}
    {m : Graph → Graph → MatchingResult} (hsym : SymOn cands m) (huniq : UniqueIds cands)
    {se sr i_a : Nat} :
    ∀ (bl : List (List Candidate)) (i_n : Nat),
      (∀ bu ∈ bl, ∀ b ∈ bu, b ∈ allCands cands) →
      (∀ k, k < bl.length → ∀ gb ∈ cands, i_n + k < gb.length) →
    ∀ (res : List PatternResult) (c : MatchCache), CacheOK cands m c →
    ∃ c', runGraphP cands m se sr i_a i_n bl (res, c) =
        some (res ++ canonGraph cands m se sr i_a i_n bl, c') ∧
      CacheOK cands m c' := by
  intro bl
  induction bl with
  | nil =>
    intro i_n _ _ res c hC
    exact ⟨c, by simp [runGraphP, canonGraph], hC⟩
  | cons bucket bl' ih =>
    intro i_n hbm hk res c hC
    have hcl : ∀ gb ∈ cands, i_n < gb.length := fun gb h => by
      have := hk 0 (by simp) gb h
      omega
    obtain ⟨c1, hb, hC1⟩ := runBucketP_spec hsym huniq hcl bucket
      (hbm bucket (List.mem_cons_self bucket bl')) res c hC
    obtain ⟨c', heq, hC'⟩ := ih (i_n + 1)
      (fun bu hbu => hbm bu (List.mem_cons_of_mem bucket hbu))
      (fun k hkl gb hgb => by
        have := hk (k + 1) (by simpa using Nat.succ_lt_succ hkl) gb hgb
        omega)
      (res ++ canonBucket cands m se sr i_a i_n bucket) c1 hC1
    refine ⟨c', ?_, hC'⟩
    simp only [runGraphP]
    rw [hb]
    show runGraphP cands m se sr i_a (i_n + 1) bl'
        (res ++ canonBucket cands m se sr i_a i_n bucket, c1) = _
    rw [heq, canonGraph, List.append_assoc]

/-- The parallel outer loop produces the canonical survivor list. -/
theorem runAllP_spec {cands : List (List (List Candidate))}
    {m : Graph → Graph → MatchingResult} (hsym : SymOn cands m) (huniq : UniqueIds cands)
    (hunif : UniformBuckets cands) {se sr : Nat} :
    ∀ (rest : List (List (List Candidate))) (i_a : Nat), (∀ ga ∈ rest, ga ∈ cands) →
    ∀ (res : List PatternResult) (c : MatchCache), CacheOK cands m c →
    ∃ c', runAllP cands m se sr i_a rest (res, c) =
        some (res ++ canonAll cands m se sr i_a rest, c') ∧
      CacheOK cands m c' := by
  intro rest
  induction rest with
  | nil =>
    intro i_a _ res c hC
    exact ⟨c, by simp [runAllP, canonAll], hC⟩
  | cons ga rest ih =>
    intro i_a hrm res c hC
    have hga : ga ∈ cands := hrm ga (List.mem_cons_self ga rest)
    obtain ⟨c1, hg, hC1⟩ := runGraphP_spec hsym huniq ga 0
      (fun bu hbu b hb =>
        List.mem_flatten.mpr ⟨bu, List.mem_flatten.mpr ⟨ga, hga, hbu⟩, hb⟩)
      (fun k hkl gb hgb => by
        have := hunif gb hgb ga hga
        omega)
      res c hC
    obtain ⟨c', heq, hC'⟩ := ih (i_a + 1)
      (fun x hx => hrm x (List.mem_cons_of_mem ga hx))
      (res ++ canonGraph cands m se sr i_a 0 ga) c1 hC1
    refine ⟨c', ?_, hC'⟩
    simp only [runAllP]
    rw [hg]
    show runAllP cands m se sr (i_a + 1) rest
        (res ++ canonGraph cands m se sr i_a 0 ga, c1) = _
    rw [heq, canonAll, List.append_assoc]

/-- The counting phase of `run_parallel` computes exactly the canonical
survivor list, with a cache satisfying the invariant. -/
theorem run_parallel_survivors_spec {cands : List (List (List Candidate))}
    {m : Graph → Graph → MatchingResult} (hsym : SymOn cands m) (huniq : UniqueIds cands)
    (hunif : UniformBuckets cands) (se sr : Nat) :
    ∃ c', run_parallel_survivors cands m se sr =
        some (canonAll cands m se sr 0 cands, c') ∧
      CacheOK cands m c' := by
  obtain ⟨c', heq, hC'⟩ :=
    runAllP_spec hsym huniq hunif cands 0 (fun _ h => h) [] [] cacheOK_nil
  exact ⟨c', by rw [run_parallel_survivors, heq, List.nil_append], hC'⟩

/-! ## Threshold monotonicity of the canonical survivor list -/

/-- Lowering either support threshold can only add entries to the canonical
per-bucket survivor segment. -/
theorem canonBucket_mono {cands : List (List (List Candidate))}
    {m : Graph → Graph → MatchingResult} {i_a i_n : Nat} {se sr se' sr' : Nat}
    (h1 : se' ≤ se) (h2 : sr' ≤ sr) :
    ∀ bucket, (canonBucket cands m se sr i_a i_n bucket).Sublist
      (canonBucket cands m se' sr' i_a i_n bucket)
  | [] => List.Sublist.refl _
  | a :: rest => by
    simp only [canonBucket]
    by_cases hemit : se ≤ 1 + countContrib m i_a i_n a true 0 cands ∨
        sr ≤ 1 + countContrib m i_a i_n a false 0 cands
    · rw [if_pos hemit,
        if_pos (show se' ≤ 1 + countContrib m i_a i_n a true 0 cands ∨
          sr' ≤ 1 + countContrib m i_a i_n a false 0 cands by
            rcases hemit with h | h
            · exact Or.inl (le_trans h1 h)
            · exact Or.inr (le_trans h2 h))]
      exact (canonBucket_mono h1 h2 rest).cons₂ _
    · rw [if_neg hemit, List.nil_append]
      exact (canonBucket_mono h1 h2 rest).trans (List.sublist_append_right _ _)

/-- Per-graph version of `canonBucket_mono`. -/
theorem canonGraph_mono {cands : List (List (List Candidate))}
    {m : Graph → Graph → MatchingResult} {i_a : Nat} {se sr se' sr' : Nat}
    (h1 : se' ≤ se) (h2 : sr' ≤ sr) :
    ∀ (i_n : Nat) bl, (canonGraph cands m se sr i_a i_n bl).Sublist
      (canonGraph cands m se' sr' i_a i_n bl)
  | _, [] => List.Sublist.refl _
  | i_n, bucket :: bl => by
    simp only [canonGraph]
    exact (canonBucket_mono h1 h2 bucket).append (canonGraph_mono h1 h2 (i_n + 1) bl)

/-- Lowering either support threshold can only grow the canonical survivor
list, keeping the surviving entries (patterns and both frequencies). -/
theorem canonAll_mono {cands : List (List (List Candidate))}
    {m : Graph → Graph → MatchingResult} {se sr se' sr' : Nat}
    (h1 : se' ≤ se) (h2 : sr' ≤ sr) :
    ∀ (i_a : Nat) rest, (canonAll cands m se sr i_a rest).Sublist
      (canonAll cands m se' sr' i_a rest)
  | _, [] => List.Sublist.refl _
  | i_a, ga :: rest => by
    simp only [canonAll]
    exact (canonGraph_mono h1 h2 0 ga).append (canonAll_mono h1 h2 (i_a + 1) rest)

/-! ## C1: the counting phase of the parallel candidate matcher -/

/-- Claim C1, counterexample: the claim counts contributions from *every*
candidate of every other graph, but the code only scans the other graph's
same-size bucket.  With the only relaxed partner sitting in a different size
bucket, the claim predicts `freq_relaxed = 2 ≥ σ_relaxed` for candidate `c1b`
(so `c1b` should be emitted), yet the code emits nothing. -/
theorem c1_counterexample :
    (run_parallel_survivors c1cands c1m 99 2).map Prod.fst = some [] ∧
    1 + countContribAll c1m 1 c1b false 0 c1cands = 2 ∧
    c1m c1b.graph c1a.graph = MatchingResult.RelaxedMatch := by
  decide

/-- Claim C1, amended: with a symmetric matcher, globally unique candidate ids
and a uniform number of size buckets per graph, the counting phase emits
exactly the candidates whose frequencies — `1` plus the number of other graphs
containing, *in the same size bucket*, an exact (respectively exact-or-relaxed)
partner — reach either support threshold, in production order. -/
theorem c1_amended {cands : List (List (List Candidate))}
    {m : Graph → Graph → MatchingResult} (hsym : SymOn cands m)
    (huniq : UniqueIds cands) (hunif : UniformBuckets cands) (se sr : Nat) :
    ∃ cache, run_parallel_survivors cands m se sr =
      some (canonAll cands m se sr 0 cands, cache) := by
  obtain ⟨c', heq, _⟩ := run_parallel_survivors_spec hsym huniq hunif se sr
  exact ⟨c', heq⟩

/-- Witness: the amended C1 applied to the concrete collection `c1cands`. -/
theorem c1_amended_witness :
    SymOn c1cands c1m ∧ UniqueIds c1cands ∧ UniformBuckets c1cands ∧
      ∃ cache, run_parallel_survivors c1cands c1m 99 2 =
        some (canonAll c1cands c1m 99 2 0 c1cands, cache) :=
  ⟨by decide, by decide, by decide, c1_amended (by decide) (by decide) (by decide) 99 2⟩

/-! ## The naive candidate matcher under the no-exact hypothesis -/

/-- Membership in an `insertId` update. -/
theorem insertId_mem {a x : Nat} {l : List Nat} : x ∈ insertId a l ↔ x ∈ l ∨ x = a := by
  unfold insertId
  split_ifs with h
  · exact ⟨Or.inl, fun hx => hx.elim id fun he => he ▸ h⟩
  · simp

/-- When no candidate pair of the collection matches exactly, the naive bucket
scan never breaks: it returns no exact partner and the relaxed flag, and
preserves the cache invariant. -/
theorem naiveScanBucket_spec {cands : List (List (List Candidate))}
    {m : Graph → Graph → MatchingResult} (hsym : SymOn cands m) (huniq : UniqueIds cands)
    (hnx : NoExact cands m) {a : Candidate} (ha : a ∈ allCands cands) :
    ∀ (bucket : List Candidate), (∀ b ∈ bucket, b ∈ allCands cands) →
    ∀ (rel : Bool) (c : MatchCache), CacheOK cands m c →
    ∃ c', naiveScanBucket m a bucket rel c =
        (none,
         (rel || bucket.any fun b => m a.graph b.graph == MatchingResult.RelaxedMatch),
         c') ∧
      CacheOK cands m c' := by
  intro bucket
  induction bucket with
  | nil => intro _ rel c hC; exact ⟨c, by simp [naiveScanBucket], hC⟩
  | cons b rest ih =>
    intro hbm rel c hC
    have hb : b ∈ allCands cands := hbm b (List.mem_cons_self b rest)
    have hrm : ∀ x ∈ rest, x ∈ allCands cands := fun x hx => hbm x (List.mem_cons_of_mem b hx)
    obtain ⟨hval, hC2⟩ := cacheGetOrInsert_spec hsym huniq ha hb hC
    rw [naiveScanBucket]
    cases hcase : m a.graph b.graph with
    | ExactMatch => exact absurd hcase (hnx a ha b hb)
    | RelaxedMatch =>
      rw [hval, hcase]
      obtain ⟨c', heq, hC'⟩ := ih hrm true (cacheGetOrInsert m a b c).2 hC2
      exact ⟨c', by
        rw [heq]
        simp [hcase, mrbeq_ee, mrbeq_re, mrbeq_ne, mrbeq_er, mrbeq_rr, mrbeq_nr], hC'⟩
    | NoMatch =>
      rw [hval, hcase]
      obtain ⟨c', heq, hC'⟩ := ih hrm rel (cacheGetOrInsert m a b c).2 hC2
      exact ⟨c', by
        rw [heq]
        simp [hcase, mrbeq_ee, mrbeq_re, mrbeq_ne, mrbeq_er, mrbeq_rr, mrbeq_nr], hC'⟩

/-- The naive other-graphs loop mirrors the parallel one under the no-exact
hypothesis: the frequencies get the same per-graph contributions, the recorded
exact partners stay untouched, and the cache invariant is preserved. -/
theorem processOthersN_spec {cands : List (List (List Candidate))}
    {m : Graph → Graph → MatchingResult} (hsym : SymOn cands m) (huniq : UniqueIds cands)
    (hnx : NoExact cands m) {i_a i_n : Nat} {a : Candidate} (ha : a ∈ allCands cands) :
    ∀ (rest : List (List (List Candidate))) (i_b : Nat),
      (∀ gb ∈ rest, gb ∈ cands) → (∀ gb ∈ rest, i_n < gb.length) →
    ∀ (fe fr : Nat) (mt : List Nat) (c : MatchCache), CacheOK cands m c →
    ∃ c', processOthersN m i_a i_n a i_b rest (fe, fr, mt, c) =
        some (fe + countContrib m i_a i_n a true i_b rest,
          fr + countContrib m i_a i_n a false i_b rest, mt, c') ∧
      CacheOK cands m c' := by
  intro rest
  induction rest with
  | nil =>
    intro i_b _ _ fe fr mt c hC
    exact ⟨c, by simp [processOthersN, countContrib], hC⟩
  | cons gb rest ih =>
    intro i_b hrm hbl fe fr mt c hC
    have hgb : gb ∈ cands := hrm gb (List.mem_cons_self gb rest)
    have hrm' : ∀ x ∈ rest, x ∈ cands := fun x hx => hrm x (List.mem_cons_of_mem gb hx)
    have hbl' : ∀ x ∈ rest, i_n < x.length := fun x hx => hbl x (List.mem_cons_of_mem gb hx)
    by_cases hia : i_b = i_a
    · obtain ⟨c', heq, hC'⟩ := ih (i_b + 1) hrm' hbl' fe fr mt c hC
      refine ⟨c', ?_, hC'⟩
      rw [processOthersN, if_pos hia, heq, countContrib_cons_skip hia,
        countContrib_cons_skip hia]
    · cases hget : gb.get? i_n with
      | none =>
        exact absurd hget
          (by rw [List.get?_eq_get (hbl gb (List.mem_cons_self gb rest))]; simp)
      | some bucket =>
        have hbmem : bucket ∈ gb := List.get?_mem hget
        have hbm : ∀ b ∈ bucket, b ∈ allCands cands := fun b hb =>
          List.mem_flatten.mpr ⟨bucket, List.mem_flatten.mpr ⟨gb, hgb, hbmem⟩, hb⟩
        have hE : (bucket.any fun b => m a.graph b.graph == MatchingResult.ExactMatch)
            = false := by
          simp only [List.any_eq_false]
          intro b hb
          simpa using hnx a ha b (hbm b hb)
        obtain ⟨c1, hscan, hC1⟩ := naiveScanBucket_spec hsym huniq hnx ha bucket hbm false c hC
        rw [Bool.false_or] at hscan
        cases hR : bucket.any fun b => m a.graph b.graph == MatchingResult.RelaxedMatch with
        | true =>
          rw [hR] at hscan
          obtain ⟨c', heq, hC'⟩ := ih (i_b + 1) hrm' hbl' fe (fr + 1) mt c1 hC1
          refine ⟨c', ?_, hC'⟩
          simp only [processOthersN, if_neg hia, hget]
          rw [hscan]
          show processOthersN m i_a i_n a (i_b + 1) rest (fe, fr + 1, mt, c1) = _
          rw [heq, countContrib_cons_exact hia hget, countContrib_cons_rel hia hget, hE,
            hR, Bool.false_or]
          simp <;> omega
        | false =>
          rw [hR] at hscan
          obtain ⟨c', heq, hC'⟩ := ih (i_b + 1) hrm' hbl' fe fr mt c1 hC1
          refine ⟨c', ?_, hC'⟩
          simp only [processOthersN, if_neg hia, hget]
          rw [hscan]
          show processOthersN m i_a i_n a (i_b + 1) rest (fe, fr, mt, c1) = _
          rw [heq, countContrib_cons_exact hia hget, countContrib_cons_rel hia hget, hE,
            hR, Bool.false_or]
          simp <;> omega

/-- The naive per-bucket candidate loop: under the no-exact hypothesis (and
fresh, pairwise-distinct candidate ids) the skip set never fires, every
candidate is processed as in the parallel variant, and the skip set simply
accumulates the candidates' own ids. -/
theorem runBucketN_spec {cands : List (List (List Candidate))}
    {m : Graph → Graph → MatchingResult} (hsym : SymOn cands m) (huniq : UniqueIds cands)
    (hnx : NoExact cands m) {se sr i_a i_n : Nat}
    (hcl : ∀ gb ∈ cands, i_n < gb.length) :
    ∀ (bucket : List Candidate), (∀ b ∈ bucket, b ∈ allCands cands) →
    ∀ (res : List PatternResult) (skip : List Nat) (c : MatchCache), CacheOK cands m c →
      (∀ b ∈ bucket, b.graph.id ∉ skip) →
      ((bucket.map fun b => b.graph.id).Nodup) →
    ∃ skip' c', runBucketN cands m se sr i_a i_n bucket (res, skip, c) =
        some (res ++ canonBucket cands m se sr i_a i_n bucket, skip', c') ∧
      CacheOK cands m c' ∧
      (∀ x, x ∈ skip' ↔ x ∈ skip ∨ x ∈ bucket.map fun b => b.graph.id) := by
  intro bucket
  induction bucket with
  | nil =>
    intro _ res skip c hC _ _
    exact ⟨skip, c, by simp [runBucketN, canonBucket], hC, fun x => by simp⟩
  | cons a rest ih =>
    intro hbm res skip c hC hskip hnodup
    have ha : a ∈ allCands cands := hbm a (List.mem_cons_self a rest)
    have hrm : ∀ x ∈ rest, x ∈ allCands cands := fun x hx => hbm x (List.mem_cons_of_mem a hx)
    have hid : a.graph.id ∉ skip := hskip a (List.mem_cons_self a rest)
    have hanotin : a.graph.id ∉ rest.map fun b => b.graph.id := by
      have := hnodup
      rw [List.map_cons, List.nodup_cons] at this
      exact this.1
    have hskip2 : ∀ b ∈ rest, b.graph.id ∉ insertId a.graph.id skip := by
      intro b hb hmem
      rcases insertId_mem.mp hmem with h | h
      · exact hskip b (List.mem_cons_of_mem a hb) h
      · exact hanotin (h ▸ List.mem_map_of_mem (fun b => b.graph.id) hb)
    have hnodup2 : (rest.map fun b => b.graph.id).Nodup := by
      have := hnodup
      rw [List.map_cons, List.nodup_cons] at this
      exact this.2
    obtain ⟨c1, hpo, hC1⟩ :=
      processOthersN_spec hsym huniq hnx ha cands 0 (fun gb h => h) hcl 1 1 [a.graph.id] c hC
    by_cases hemit : se ≤ 1 + countContrib m i_a i_n a true 0 cands ∨
        sr ≤ 1 + countContrib m i_a i_n a false 0 cands
    · obtain ⟨skip', c', heq, hC', hiff⟩ := ih hrm
        (res ++ [⟨a.graph, 1 + countContrib m i_a i_n a true 0 cands,
          1 + countContrib m i_a i_n a false 0 cands⟩])
        (insertId a.graph.id skip) c1 hC1 hskip2 hnodup2
      refine ⟨skip', c', ?_, hC', ?_⟩
      · simp only [runBucketN, if_neg hid]
        rw [hpo]
        show runBucketN cands m se sr i_a i_n rest
            ((if se ≤ 1 + countContrib m i_a i_n a true 0 cands ∨
                sr ≤ 1 + countContrib m i_a i_n a false 0 cands
              then res ++ [⟨a.graph, 1 + countContrib m i_a i_n a true 0 cands,
                1 + countContrib m i_a i_n a false 0 cands⟩] else res),
             insertId a.graph.id skip, c1) = _
        rw [if_pos hemit, heq]
        simp only [canonBucket]
        rw [if_pos hemit, List.append_assoc]
      · intro x
        rw [hiff x, insertId_mem, List.map_cons, List.mem_cons]
        tauto
    · obtain ⟨skip', c', heq, hC', hiff⟩ :=
        ih hrm res (insertId a.graph.id skip) c1 hC1 hskip2 hnodup2
      refine ⟨skip', c', ?_, hC', ?_⟩
      · simp only [runBucketN, if_neg hid]
        rw [hpo]
        show runBucketN cands m se sr i_a i_n rest
            ((if se ≤ 1 + countContrib m i_a i_n a true 0 cands ∨
                sr ≤ 1 + countContrib m i_a i_n a false 0 cands
              then res ++ [⟨a.graph, 1 + countContrib m i_a i_n a true 0 cands,
                1 + countContrib m i_a i_n a false 0 cands⟩] else res),
             insertId a.graph.id skip, c1) = _
        rw [if_neg hemit, heq]
        simp only [canonBucket]
        rw [if_neg hemit, List.nil_append]
      · intro x
        rw [hiff x, insertId_mem, List.map_cons, List.mem_cons]
        tauto

/-- The naive per-graph bucket loop under the no-exact hypothesis. -/
theorem runGraphN_spec {cands : List (List (List Candidate))}
    {m : Graph → Graph → MatchingResult} (hsym : SymOn cands m) (huniq : UniqueIds cands)
    (hnx : NoExact cands m) {se sr i_a : Nat} :
    ∀ (bl : List (List Candidate)) (i_n : Nat),
      (∀ bu ∈ bl, ∀ b ∈ bu, b ∈ allCands cands) →
      (∀ k, k < bl.length → ∀ gb ∈ cands, i_n + k < gb.length) →
    ∀ (res : List PatternResult) (skip : List Nat) (c : MatchCache), CacheOK cands m c →
      (∀ bu ∈ bl, ∀ b ∈ bu, b.graph.id ∉ skip) →
      ((bl.flatten.map fun b => b.graph.id).Nodup) →
    ∃ skip' c', runGraphN cands m se sr i_a i_n bl (res, skip, c) =
        some (res ++ canonGraph cands m se sr i_a i_n bl, skip', c') ∧
      CacheOK cands m c' ∧
      (∀ x, x ∈ skip' ↔ x ∈ skip ∨ x ∈ bl.flatten.map fun b => b.graph.id) := by
  intro bl
  induction bl with
  | nil =>
    intro i_n _ _ res skip c hC _ _
    exact ⟨skip, c, by simp [runGraphN, canonGraph], hC, fun x => by simp⟩
  | cons bucket bl' ih =>
    intro i_n hbm hk res skip c hC hskip hnodup
    have hcl : ∀ gb ∈ cands, i_n < gb.length := fun gb h => by
      have := hk 0 (by simp) gb h
      omega
    rw [List.flatten_cons, List.map_append, List.nodup_append] at hnodup
    obtain ⟨hnd1, hnd2, hdisj⟩ := hnodup
    obtain ⟨skip1, c1, hb, hC1, hiff1⟩ := runBucketN_spec hsym huniq hnx hcl bucket
      (hbm bucket (List.mem_cons_self bucket bl')) res skip c hC
      (hskip bucket (List.mem_cons_self bucket bl')) hnd1
    have hskip1 : ∀ bu ∈ bl', ∀ b ∈ bu, b.graph.id ∉ skip1 := by
      intro bu hbu b hbmem hmem
      rcases (hiff1 _).mp hmem with h | h
      · exact hskip bu (List.mem_cons_of_mem bucket hbu) b hbmem h
      · exact hdisj h
          (List.mem_map_of_mem _ (List.mem_flatten.mpr ⟨bu, hbu, hbmem⟩))
    obtain ⟨skip', c', heq, hC', hiff⟩ := ih (i_n + 1)
      (fun bu hbu => hbm bu (List.mem_cons_of_mem bucket hbu))
      (fun k hkl gb hgb => by
        have := hk (k + 1) (by simpa using Nat.succ_lt_succ hkl) gb hgb
        omega)
      (res ++ canonBucket cands m se sr i_a i_n bucket) skip1 c1 hC1 hskip1 hnd2
    refine ⟨skip', c', ?_, hC', ?_⟩
    · simp only [runGraphN]
      rw [hb]
      show runGraphN cands m se sr i_a (i_n + 1) bl'
          (res ++ canonBucket cands m se sr i_a i_n bucket, skip1, c1) = _
      rw [heq, canonGraph, List.append_assoc]
    · intro x
      rw [hiff x, hiff1 x, List.flatten_cons, List.map_append, List.mem_append]
      tauto

/-- The naive outer graph loop under the no-exact hypothesis. -/
theorem runAllN_spec {cands : List (List (List Candidate))}
    {m : Graph → Graph → MatchingResult} (hsym : SymOn cands m) (huniq : UniqueIds cands)
    (hunif : UniformBuckets cands) (hnx : NoExact cands m) {se sr : Nat} :
    ∀ (rest : List (List (List Candidate))) (i_a : Nat), (∀ ga ∈ rest, ga ∈ cands) →
    ∀ (res : List PatternResult) (skip : List Nat) (c : MatchCache), CacheOK cands m c →
      (∀ ga ∈ rest, ∀ bu ∈ ga, ∀ b ∈ bu, b.graph.id ∉ skip) →
      ((rest.flatten.flatten.map fun b => b.graph.id).Nodup) →
    ∃ skip' c', runAllN cands m se sr i_a rest (res, skip, c) =
        some (res ++ canonAll cands m se sr i_a rest, skip', c') ∧
      CacheOK cands m c' ∧
      (∀ x, x ∈ skip' ↔ x ∈ skip ∨
        x ∈ rest.flatten.flatten.map fun b => b.graph.id) := by
  intro rest
  induction rest with
  | nil =>
    intro i_a _ res skip c hC _ _
    exact ⟨skip, c, by simp [runAllN, canonAll], hC, fun x => by simp⟩
  | cons ga rest' ih =>
    intro i_a hrm res skip c hC hskip hnodup
    have hga : ga ∈ cands := hrm ga (List.mem_cons_self ga rest')
    rw [List.flatten_cons, List.flatten_append, List.map_append, List.nodup_append]
      at hnodup
    obtain ⟨hnd1, hnd2, hdisj⟩ := hnodup
    obtain ⟨skip1, c1, hg, hC1, hiff1⟩ := runGraphN_spec hsym huniq hnx ga 0
      (fun bu hbu b hb =>
        List.mem_flatten.mpr ⟨bu, List.mem_flatten.mpr ⟨ga, hga, hbu⟩, hb⟩)
      (fun k hkl gb hgb => by
        have := hunif gb hgb ga hga
        omega)
      res skip c hC (hskip ga (List.mem_cons_self ga rest')) hnd1
    have hskip1 : ∀ gb ∈ rest', ∀ bu ∈ gb, ∀ b ∈ bu, b.graph.id ∉ skip1 := by
      intro gb hgbm bu hbu b hbmem hmem
      rcases (hiff1 _).mp hmem with h | h
      · exact hskip gb (List.mem_cons_of_mem ga hgbm) bu hbu b hbmem h
      · exact hdisj h
          (List.mem_map_of_mem _ (List.mem_flatten.mpr
            ⟨bu, List.mem_flatten.mpr ⟨gb, hgbm, hbu⟩, hbmem⟩))
    obtain ⟨skip', c', heq, hC', hiff⟩ := ih (i_a + 1)
      (fun x hx => hrm x (List.mem_cons_of_mem ga hx))
      (res ++ canonGraph cands m se sr i_a 0 ga) skip1 c1 hC1 hskip1 hnd2
    refine ⟨skip', c', ?_, hC', ?_⟩
    · simp only [runAllN]
      rw [hg]
      show runAllN cands m se sr (i_a + 1) rest'
          (res ++ canonGraph cands m se sr i_a 0 ga, skip1, c1) = _
      rw [heq, canonAll, List.append_assoc]
    · intro x
      rw [hiff x, hiff1 x, List.flatten_cons, List.flatten_append, List.map_append,
        List.mem_append]
      tauto

/-- Under the no-exact hypothesis the naive variant also computes exactly the
canonical survivor list. -/
theorem run_naive_spec {cands : List (List (List Candidate))}
    {m : Graph → Graph → MatchingResult} (hsym : SymOn cands m) (huniq : UniqueIds cands)
    (hunif : UniformBuckets cands) (hnx : NoExact cands m) (se sr : Nat) :
    run_naive cands m se sr = some (canonAll cands m se sr 0 cands) := by
  obtain ⟨skip', c', heq, _, _⟩ := runAllN_spec hsym huniq hunif hnx cands 0
    (fun _ h => h) [] [] [] cacheOK_nil (by simp) huniq
  rw [run_naive, heq]
  simp

/-! ## De-duplication is the identity without exact matches -/

/-- The canonical per-bucket survivor segment takes its pattern ids from the
bucket's candidates, in order. -/
theorem canonBucket_ids_sublist {cands : List (List (List Candidate))}
    {m : Graph → Graph → MatchingResult} {se sr i_a i_n : Nat} :
    ∀ bucket : List Candidate,
      ((canonBucket cands m se sr i_a i_n bucket).map fun p => p.pattern.id).Sublist
        (bucket.map fun b => b.graph.id)
  | [] => by simp [canonBucket]
  | a :: rest => by
    simp only [canonBucket, List.map_cons]
    by_cases hemit : se ≤ 1 + countContrib m i_a i_n a true 0 cands ∨
        sr ≤ 1 + countContrib m i_a i_n a false 0 cands
    · rw [if_pos hemit, List.singleton_append, List.map_cons]
      exact (canonBucket_ids_sublist rest).cons₂ _
    · rw [if_neg hemit, List.nil_append]
      exact (canonBucket_ids_sublist rest).cons _

/-- Per-graph version of `canonBucket_ids_sublist`. -/
theorem canonGraph_ids_sublist {cands : List (List (List Candidate))}
    {m : Graph → Graph → MatchingResult} {se sr i_a : Nat} :
    ∀ (i_n : Nat) (bl : List (List Candidate)),
      ((canonGraph cands m se sr i_a i_n bl).map fun p => p.pattern.id).Sublist
        (bl.flatten.map fun b => b.graph.id)
  | _, [] => by simp [canonGraph]
  | i_n, bucket :: bl => by
    rw [canonGraph, List.map_append, List.flatten_cons, List.map_append]
    exact (canonBucket_ids_sublist bucket).append (canonGraph_ids_sublist (i_n + 1) bl)

/-- The canonical survivor list's pattern ids are drawn, in order, from the
candidate ids. -/
theorem canonAll_ids_sublist {cands : List (List (List Candidate))}
    {m : Graph → Graph → MatchingResult} {se sr : Nat} :
    ∀ (i_a : Nat) (rest : List (List (List Candidate))),
      ((canonAll cands m se sr i_a rest).map fun p => p.pattern.id).Sublist
        (rest.flatten.flatten.map fun b => b.graph.id)
  | _, [] => by simp [canonAll]
  | i_a, ga :: rest => by
    rw [canonAll, List.map_append, List.flatten_cons, List.flatten_append,
      List.map_append]
    exact (canonGraph_ids_sublist 0 ga).append (canonAll_ids_sublist (i_a + 1) rest)

/-- If no cached value is an exact match, the marking fold of the
de-duplication pass leaves the visited set unchanged. -/
theorem dedupGo_fold_const {cache : MatchCache}
    (hval : ∀ k r, List.lookup k cache = some r → r ≠ MatchingResult.ExactMatch)
    (p : PatternResult) :
    ∀ (rest : List PatternResult) (vis : List Nat),
      rest.foldl
        (fun vis q =>
          if p.pattern.id = q.pattern.id then vis
          else if List.lookup (cacheKey p.pattern.id q.pattern.id) cache =
              some MatchingResult.ExactMatch
            then insertId q.pattern.id vis
            else vis)
        vis = vis
  | [], _ => rfl
  | q :: rest, vis => by
    rw [List.foldl_cons]
    have hstep : (if p.pattern.id = q.pattern.id then vis
        else if List.lookup (cacheKey p.pattern.id q.pattern.id) cache =
            some MatchingResult.ExactMatch
          then insertId q.pattern.id vis
          else vis) = vis := by
      split_ifs with h1 h2
      · rfl
      · exact absurd rfl (hval _ _ h2)
      · rfl
    rw [hstep]
    exact dedupGo_fold_const hval p rest vis

/-- If no cached value is an exact match and the survivors carry pairwise
distinct, unvisited pattern ids, the de-duplication pass keeps every
survivor. -/
theorem dedupGo_no_drop {cache : MatchCache}
    (hval : ∀ k r, List.lookup k cache = some r → r ≠ MatchingResult.ExactMatch) :
    ∀ (l : List PatternResult) (visited : List Nat),
      ((l.map fun p => p.pattern.id).Nodup) → (∀ p ∈ l, p.pattern.id ∉ visited) →
      dedupGo cache l visited = l
  | [], _, _, _ => rfl
  | p :: rest, visited, hnd, hvis => by
    rw [dedupGo, if_neg (hvis p (List.mem_cons_self p rest)),
      dedupGo_fold_const hval p rest (insertId p.pattern.id visited)]
    rw [List.map_cons, List.nodup_cons] at hnd
    congr 1
    apply dedupGo_no_drop hval rest _ hnd.2
    intro q hq hmem
    rcases insertId_mem.mp hmem with h | h
    · exact hvis q (List.mem_cons_of_mem p hq) h
    · exact hnd.1 (h ▸ List.mem_map_of_mem (fun p => p.pattern.id) hq)

/-! ## C2: naive/parallel equivalence -/

/-- Claim C2, counterexample: on a collection where one graph holds two
candidates that both match the other graph's single candidate exactly, the
naive variant (with its skip set) returns two patterns while the parallel
variant (with its post-hoc de-duplication by cached exact matches) returns
one. -/
theorem c2_counterexample :
    (run_matching AlgoCandidateMatching.Naive c2cands matchGraphsVF2 2 2).map
        List.length = some 2 ∧
    (run_matching AlgoCandidateMatching.Parallel c2cands matchGraphsVF2 2 2).map
        List.length = some 1 := by
  decide

/-- Claim C2, amended: with a symmetric matcher, globally unique candidate
ids, uniform bucket counts, and *no exactly-matching candidate pair*, the
naive and parallel variants agree (both produce the canonical survivor list,
and the parallel de-duplication drops nothing). -/
theorem c2_amended {cands : List (List (List Candidate))}
    {m : Graph → Graph → MatchingResult} (hsym : SymOn cands m)
    (huniq : UniqueIds cands) (hunif : UniformBuckets cands) (hnx : NoExact cands m)
    (se sr : Nat) :
    run_matching AlgoCandidateMatching.Naive cands m se sr =
      run_matching AlgoCandidateMatching.Parallel cands m se sr := by
  have hnaive := run_naive_spec hsym huniq hunif hnx se sr
  obtain ⟨c', hsurv, hC'⟩ := run_parallel_survivors_spec hsym huniq hunif se sr
  have hval : ∀ k r, List.lookup k c' = some r → r ≠ MatchingResult.ExactMatch := by
    intro k r hk
    obtain ⟨x, hx, y, hy, _, hr⟩ := hC' k r hk
    exact hr ▸ hnx x hx y hy
  have hnd : ((canonAll cands m se sr 0 cands).map fun p => p.pattern.id).Nodup :=
    (canonAll_ids_sublist 0 cands).nodup huniq
  have hpar : run_parallel cands m se sr = some (canonAll cands m se sr 0 cands) := by
    rw [run_parallel, hsurv]
    show some (dedupGo c' (canonAll cands m se sr 0 cands) []) = _
    rw [dedupGo_no_drop hval _ [] hnd (by simp)]
  simp only [run_matching]
  rw [hnaive, hpar]

/-- Witness: the amended C2 applied to the concrete collection `c2cands` with
a relaxed-only matcher. -/
theorem c2_amended_witness :
    SymOn c2cands (gedRelaxedOnly GEDEditCosts.default1 3) ∧
    UniqueIds c2cands ∧ UniformBuckets c2cands ∧
    NoExact c2cands (gedRelaxedOnly GEDEditCosts.default1 3) ∧
    run_matching AlgoCandidateMatching.Naive c2cands
        (gedRelaxedOnly GEDEditCosts.default1 3) 2 2 =
      run_matching AlgoCandidateMatching.Parallel c2cands
        (gedRelaxedOnly GEDEditCosts.default1 3) 2 2 :=
  ⟨by decide, by decide, by decide, by decide,
    c2_amended (by decide) (by decide) (by decide) (by decide) 2 2⟩

/-! ## C8: threshold monotonicity -/

/-- Claim C8, counterexample: with GED costs `c8ec` (`edge_ins = 0`) and
threshold 0, candidate `c8p` matches `c8q` exactly and `c8x` relaxed, while
`c8q` and `c8x` do not match.  At supports `(3, 3)` only `c8p` survives; at the
*lower* supports `(3, 2)` all three survive but the de-duplication pass drops
`c8p` (it is exactly matched by the earlier survivor `c8q`), so `c8p`'s pattern
disappears from the result when a threshold is lowered. -/
theorem c8_counterexample :
    run_matching AlgoCandidateMatching.Parallel c8cands c8m 3 3 =
      some [⟨⟨0, c8p.graph.vertices⟩, 2, 3⟩] ∧
    run_matching AlgoCandidateMatching.Parallel c8cands c8m 3 2 =
      some [⟨⟨0, c8q.graph.vertices⟩, 2, 2⟩, ⟨⟨1, c8x.graph.vertices⟩, 1, 2⟩] ∧
    c8p.graph.vertices ≠ c8q.graph.vertices ∧
    c8p.graph.vertices ≠ c8x.graph.vertices := by
  decide

/-- Claim C8, amended: monotonicity does hold for the counting phase.  With a
symmetric matcher, unique candidate ids and uniform bucket counts, lowering
either support threshold only extends the pre-deduplication survivor list:
the higher-threshold survivors form a sublist (same patterns, same
frequencies) of the lower-threshold survivors.  (The subsequent
de-duplication pass breaks this, as the counterexample shows.) -/
theorem c8_amended {cands : List (List (List Candidate))}
    {m : Graph → Graph → MatchingResult} (hsym : SymOn cands m)
    (huniq : UniqueIds cands) (hunif : UniformBuckets cands)
    {se sr se' sr' : Nat} (h1 : se' ≤ se) (h2 : sr' ≤ sr) :
    ∃ hi lo chi clo,
      run_parallel_survivors cands m se sr = some (hi, chi) ∧
      run_parallel_survivors cands m se' sr' = some (lo, clo) ∧
      hi.Sublist lo := by
  obtain ⟨chi, hhi, _⟩ := run_parallel_survivors_spec hsym huniq hunif se sr
  obtain ⟨clo, hlo, _⟩ := run_parallel_survivors_spec hsym huniq hunif se' sr'
  exact ⟨_, _, chi, clo, hhi, hlo, canonAll_mono h1 h2 0 cands⟩

/-- Witness: the amended C8 applied to the concrete collection `c8cands` at
supports `(3, 3)` and `(3, 2)`. -/
theorem c8_amended_witness :
    SymOn c8cands c8m ∧ UniqueIds c8cands ∧ UniformBuckets c8cands ∧
      ∃ hi lo chi clo,
        run_parallel_survivors c8cands c8m 3 3 = some (hi, chi) ∧
        run_parallel_survivors c8cands c8m 3 2 = some (lo, clo) ∧
        hi.Sublist lo :=
  ⟨by decide, by decide, by decide,
    c8_amended (by decide) (by decide) (by decide) (by decide) (by decide)⟩

/-! ## Soundness of the connectivity oracle

`vertices_are_connected` can wrongly answer `false` (claim C3), but a `true`
answer is reliable: the flood set only ever grows along induced edges. -/

/-- Reflexive-transitive closure of a symmetric relation is symmetric. -/
theorem rtg_symm {α : Type} {r : α → α → Prop} (hs : ∀ x y, r x y → r y x) {a b : α}
    (h : Relation.ReflTransGen r a b) : Relation.ReflTransGen r b a := by
  induction h with
  | refl => exact Relation.ReflTransGen.refl
  | tail _ hstep ih =>
      exact Relation.ReflTransGen.trans (Relation.ReflTransGen.single (hs _ _ hstep)) ih

/-- `insertId` preserves duplicate-freedom. -/
theorem insertId_nodup {a : Nat} {l : List Nat} (h : l.Nodup) : (insertId a l).Nodup := by
  unfold insertId
  split_ifs with hmem
  · exact h
  · simpa [List.nodup_append] using ⟨h, hmem⟩

/-- One pass of the flood loop keeps the visited set duplicate-free, inside
the id set, and reachable from the seed. -/
theorem connPass_spec {vs : List Vertex} {v_ids : List Nat}
    (hv : ∀ x, x ∈ v_ids ↔ x ∈ idsOf vs) (v0 : Nat) :
    ∀ (edges : List Edge),
      (∀ e ∈ edges, e.from' ∈ v_ids ∧ e.to' ∈ v_ids ∧ ∃ v ∈ vs, e ∈ v.edges) →
    ∀ (visited rem : List Nat),
      visited.Nodup → (∀ x ∈ visited, x ∈ v_ids) →
      (∀ x ∈ visited, Relation.ReflTransGen (stepRel vs) v0 x) →
      (connPass visited rem edges).1.Nodup ∧
      (∀ x ∈ (connPass visited rem edges).1, x ∈ v_ids) ∧
      (∀ x ∈ (connPass visited rem edges).1, Relation.ReflTransGen (stepRel vs) v0 x) := by
  intro edges
  induction edges with
  | nil => intro _ visited rem h1 h2 h3; exact ⟨h1, h2, h3⟩
  | cons e rest ih =>
    intro hE visited rem h1 h2 h3
    have he := hE e (List.mem_cons_self e rest)
    have hE' : ∀ x ∈ rest, x.from' ∈ v_ids ∧ x.to' ∈ v_ids ∧ ∃ v ∈ vs, x ∈ v.edges :=
      fun x hx => hE x (List.mem_cons_of_mem e hx)
    rw [connPass]
    by_cases hfire : e.from' ∈ visited ∨ e.to' ∈ visited
    · rw [if_pos hfire]
      have hstep_ft : stepRel vs e.from' e.to' := by
        obtain ⟨v, hvm, hev⟩ := he.2.2
        exact ⟨(hv _).mp he.1, (hv _).mp he.2.1, v, hvm, e, hev, Or.inl ⟨rfl, rfl⟩⟩
      have hstep_tf : stepRel vs e.to' e.from' := by
        obtain ⟨v, hvm, hev⟩ := he.2.2
        exact ⟨(hv _).mp he.2.1, (hv _).mp he.1, v, hvm, e, hev, Or.inr ⟨rfl, rfl⟩⟩
      have hreach : Relation.ReflTransGen (stepRel vs) v0 e.from' ∧
          Relation.ReflTransGen (stepRel vs) v0 e.to' := by
        rcases hfire with hf | ht
        · exact ⟨h3 _ hf, (h3 _ hf).tail hstep_ft⟩
        · exact ⟨(h3 _ ht).tail hstep_tf, h3 _ ht⟩
      apply ih hE'
      · exact insertId_nodup (insertId_nodup h1)
      · intro x hx
        rcases insertId_mem.mp hx with hx | rfl
        · rcases insertId_mem.mp hx with hx | rfl
          · exact h2 x hx
          · exact he.1
        · exact he.2.1
      · intro x hx
        rcases insertId_mem.mp hx with hx | rfl
        · rcases insertId_mem.mp hx with hx | rfl
          · exact h3 x hx
          · exact hreach.1
        · exact hreach.2
    · rw [if_neg hfire]
      exact ih hE' visited rem h1 h2 h3

/-- Duplicate-free lists of equal length with one included in the other have
the same members. -/
theorem mem_of_subset_of_length_eq {l1 l2 : List Nat} (h1 : l1.Nodup) (h2 : l2.Nodup)
    (hs : ∀ x ∈ l1, x ∈ l2) (hl : l2.length = l1.length) : ∀ x ∈ l2, x ∈ l1 := by
  have hsub : l1.toFinset ⊆ l2.toFinset := fun x hx =>
    List.mem_toFinset.mpr (hs x (List.mem_toFinset.mp hx))
  have hcard : l2.toFinset.card ≤ l1.toFinset.card := by
    rw [List.toFinset_card_of_nodup h1, List.toFinset_card_of_nodup h2, hl]
  have heq : l1.toFinset = l2.toFinset := Finset.eq_of_subset_of_card_le hsub hcard
  intro x hx
  exact List.mem_toFinset.mp (heq ▸ List.mem_toFinset.mpr hx)

/-- If the flood loop reports success, every member id is reachable from the
seed along induced edges. -/
theorem connLoop_sound {vs : List Vertex} {v_ids : List Nat}
    (hv : ∀ x, x ∈ v_ids ↔ x ∈ idsOf vs) (hvn : v_ids.Nodup) (v0 : Nat) :
    ∀ (fuel : Nat) (visited : List Nat) (edges : List Edge),
      (∀ e ∈ edges, e.from' ∈ v_ids ∧ e.to' ∈ v_ids ∧ ∃ v ∈ vs, e ∈ v.edges) →
      visited.Nodup → (∀ x ∈ visited, x ∈ v_ids) →
      (∀ x ∈ visited, Relation.ReflTransGen (stepRel vs) v0 x) →
      connLoop fuel v_ids visited edges = true →
      ∀ x ∈ v_ids, Relation.ReflTransGen (stepRel vs) v0 x := by
  intro fuel
  induction fuel with
  | zero =>
    intro visited edges _ h1 h2 h3 hloop x hx
    rw [connLoop, beq_iff_eq] at hloop
    exact h3 x (mem_of_subset_of_length_eq h1 hvn h2 hloop x hx)
  | succ fuel ih =>
    intro visited edges hE h1 h2 h3 hloop x hx
    rw [connLoop] at hloop
    by_cases hlen : v_ids.length == visited.length
    · exact h3 x (mem_of_subset_of_length_eq h1 hvn h2 (beq_iff_eq.mp hlen) x hx)
    · rw [if_neg (by simpa using hlen)] at hloop
      obtain ⟨hp1, hp2, hp3⟩ := connPass_spec hv v0 edges hE visited [] h1 h2 h3
      by_cases hrem : (connPass visited [] edges).2.isEmpty
      · rw [if_pos hrem] at hloop
        exact absurd hloop Bool.false_ne_true
      · rw [if_neg hrem] at hloop
        exact ih (connPass visited [] edges).1
          ((edges.filter fun e => !((connPass visited [] edges).2.contains e.id)))
          (fun e he => hE e (List.mem_filter.mp he).1) hp1 hp2 hp3 hloop x hx

/-- A `true` answer of the connectivity oracle is correct: the induced
subgraph is weakly connected (the converse fails, claim C3). -/
theorem vertices_are_connected_sound {vs : List Vertex}
    (h : vertices_are_connected vs = some true) : weaklyConnected vs := by
  match hvs : vs with
  | [] => simp [vertices_are_connected] at h
  | v0 :: rest =>
    rw [vertices_are_connected] at h
    have hloop := Option.some.inj h
    have hv : ∀ x, x ∈ ((v0 :: rest).map (·.id)).dedup ↔ x ∈ idsOf (v0 :: rest) :=
      fun x => List.mem_dedup
    have hvn : (((v0 :: rest).map (·.id)).dedup).Nodup := List.nodup_dedup _
    have hreach := connLoop_sound hv hvn v0.id _ [v0.id] _
      (fun e he => by
        have hm := List.mem_filter.mp he
        have hp := of_decide_eq_true hm.2
        exact ⟨hp.1, hp.2, List.mem_flatMap.mp hm.1⟩)
      (by simp)
      (fun x hx => by
        rw [List.mem_singleton] at hx
        exact hx ▸ (hv _).mpr (List.mem_map_of_mem _ (List.mem_cons_self v0 rest)))
      (fun x hx => by
        rw [List.mem_singleton] at hx
        exact hx ▸ Relation.ReflTransGen.refl)
      hloop
    intro a ha b hb
    have hra := hreach a ((hv a).mpr ha)
    have hrb := hreach b ((hv b).mpr hb)
    exact Relation.ReflTransGen.trans
      (rtg_symm (fun _ _ hst => stepRel_symm hst) hra) hrb

/-! ## C4/C10: the candidate builder -/

/-- A successful lookup in a one-entry association list. -/
theorem lookup_singleton {s k v j : Nat} (h : List.lookup s [(k, v)] = some j) :
    s = k ∧ j = v := by
  rw [List.lookup] at h
  cases hsk : s == k with
  | true =>
    rw [hsk] at h
    exact ⟨eq_of_beq hsk, (Option.some.inj h).symm⟩
  | false => rw [hsk] at h; simp at h

/-- Case analysis of a lookup in a one-entry extension. -/
theorem lookup_append_cases {s j : Nat} {mp : List (Nat × Nat)} {k v : Nat}
    (h : List.lookup s (mp ++ [(k, v)]) = some j) :
    List.lookup s mp = some j ∨ (List.lookup s mp = none ∧ s = k ∧ j = v) := by
  cases hl : List.lookup s mp with
  | some j' =>
    rw [lookup_append_some hl] at h
    exact Or.inl h
  | none =>
    rw [lookup_append_none hl] at h
    exact Or.inr ⟨rfl, lookup_singleton h⟩

/-- Appending the binding for an absent key makes its lookup succeed. -/
theorem lookup_append_self {s v : Nat} {mp : List (Nat × Nat)}
    (h : List.lookup s mp = none) : List.lookup s (mp ++ [(s, v)]) = some v := by
  rw [lookup_append_none h, List.lookup]
  simp

/-- `pushEdgeAt` at an in-range index: same length, other vertices untouched,
the indexed vertex gets the pushed edge. -/
theorem pushEdgeAt_spec {g : Graph} {i t el : Nat} (hi : i < g.vertices.length) :
    ∃ g', g.pushEdgeAt i t el = some g' ∧
      g'.vertices.length = g.vertices.length ∧
      (∀ k (hk : k < g'.vertices.length) (hk' : k < g.vertices.length), k ≠ i →
        g'.vertices.get ⟨k, hk⟩ = g.vertices.get ⟨k, hk'⟩) ∧
      ∀ hk : i < g'.vertices.length,
        g'.vertices.get ⟨i, hk⟩ = (g.vertices.get ⟨i, hi⟩).push t el := by
  refine ⟨{ g with vertices := g.vertices.set i ((g.vertices.get ⟨i, hi⟩).push t el) },
    ?_, by simp, ?_, ?_⟩
  · rw [Graph.pushEdgeAt, List.get?_eq_get hi]
  · intro k hk hk' hne
    simp only [List.get_eq_getElem]
    exact List.getElem_set_ne (fun he => hne he.symm) _
  · intro hk
    simp only [List.get_eq_getElem]
    exact List.getElem_set_self _

/-- `GenInv` is preserved by creating an object vertex and extending the
mapping with a fresh index for it. -/
theorem genInv_create {graph : Graph} {ots : List Nat} {n : Nat}
    {st : Graph × List (Nat × Nat)} (hinv : GenInv graph ots n st)
    {lb ty key : Nat} (hty : ty ∈ ots) :
    GenInv graph ots n (st.1.create_vertex_with_data lb ty,
      st.2 ++ [(key, st.1.vertices.length)]) := by
  obtain ⟨h1, h2, h3, h4⟩ := hinv
  unfold GenInv
  simp only []
  have hlen : (st.1.create_vertex_with_data lb ty).vertices.length =
      st.1.vertices.length + 1 := by
    simp [Graph.create_vertex_with_data]
  have hold : ∀ k (hk : k < st.1.vertices.length)
      (hk' : k < (st.1.create_vertex_with_data lb ty).vertices.length),
      (st.1.create_vertex_with_data lb ty).vertices.get ⟨k, hk'⟩ =
        st.1.vertices.get ⟨k, hk⟩ := by
    intro k hk hk'
    simp only [Graph.create_vertex_with_data, List.get_eq_getElem]
    exact List.getElem_append_left hk
  have hnew : ∀ hk : st.1.vertices.length <
      (st.1.create_vertex_with_data lb ty).vertices.length,
      (st.1.create_vertex_with_data lb ty).vertices.get ⟨st.1.vertices.length, hk⟩ =
        ⟨st.1.vertices.length, lb, ty, []⟩ := by
    intro hk
    simp only [Graph.create_vertex_with_data, List.get_eq_getElem]
    exact List.getElem_concat_length _ _ _ rfl _
  refine ⟨?_, ?_, ?_, ?_⟩
  · intro s j hj
    rcases lookup_append_cases hj with hj | ⟨_, _, rfl⟩
    · exact hlen ▸ Nat.lt_succ_of_lt (h1 s j hj)
    · omega
  · omega
  · intro j hj hn
    by_cases hjl : j < st.1.vertices.length
    · rw [hold j hjl hj]
      exact h3 j hjl hn
    · have hje : j = st.1.vertices.length := by omega
      subst hje
      rw [hnew hj]
      exact hty
  · intro i hi ce hce
    by_cases hil : i < st.1.vertices.length
    · rw [hold i hil hi] at hce
      obtain ⟨v, hv, e, he, hf, ht, hl⟩ := h4 i hil ce hce
      exact ⟨v, hv, e, he, lookup_append_some hf, lookup_append_some ht, hl⟩
    · have hie : i = st.1.vertices.length := by omega
      subst hie
      rw [hnew hi] at hce
      simp at hce

/-- `GenInv` is preserved by pushing a mapped copy of a source edge. -/
theorem genInv_push {graph : Graph} {ots : List Nat} {n : Nat}
    {st : Graph × List (Nat × Nat)} (hinv : GenInv graph ots n st)
    {av : Vertex} (havg : av ∈ graph.vertices) {e : Edge} (he : e ∈ av.edges)
    (hfrom : e.from' = av.id) {j toIdx : Nat}
    (hj : List.lookup av.id st.2 = some j) (hjlt : j < st.1.vertices.length)
    (htolk : List.lookup e.to' st.2 = some toIdx) {g' : Graph}
    (hlen : g'.vertices.length = st.1.vertices.length)
    (hne : ∀ k (hk : k < g'.vertices.length) (hk' : k < st.1.vertices.length), k ≠ j →
      g'.vertices.get ⟨k, hk⟩ = st.1.vertices.get ⟨k, hk'⟩)
    (heqj : ∀ hk : j < g'.vertices.length,
      g'.vertices.get ⟨j, hk⟩ = (st.1.vertices.get ⟨j, hjlt⟩).push toIdx e.e_label) :
    GenInv graph ots n (g', st.2) := by
  obtain ⟨h1, h2, h3, h4⟩ := hinv
  unfold GenInv
  simp only []
  refine ⟨fun s j' hj' => hlen ▸ h1 s j' hj', hlen ▸ h2, ?_, ?_⟩
  · intro k hk hn
    by_cases hkj : k = j
    · subst hkj
      rw [heqj hk]
      exact h3 k hjlt hn
    · rw [hne k hk (hlen ▸ hk) hkj]
      exact h3 k (hlen ▸ hk) hn
  · intro i hi ce hce
    by_cases hij : i = j
    · subst hij
      rw [heqj hi] at hce
      simp only [Vertex.push, List.mem_append, List.mem_singleton] at hce
      rcases hce with hce | rfl
      · exact h4 i hjlt ce hce
      · exact ⟨av, havg, e, he, hfrom ▸ hj, htolk, rfl⟩
    · rw [hne i hi (hlen ▸ hi) hij] at hce
      exact h4 i (hlen ▸ hi) ce hce

/-- One step of the edge loop of `buildCandidate` never fails on a well-formed
graph and preserves the construction invariant; the mapping only grows. -/
theorem addCandidateEdge_spec {graph : Graph} (hwf : graph.wfb = true)
    {ots : List Nat} {n : Nat} {comb : List Vertex}
    (hcomb : ∀ v ∈ comb, v ∈ graph.vertices)
    {av : Vertex} (hav : av ∈ comb)
    {st : Graph × List (Nat × Nat)} (hinv : GenInv graph ots n st)
    (hact : ∀ w ∈ comb, ∃ j, List.lookup w.id st.2 = some j)
    {e : Edge} (he : e ∈ av.edges) :
    ∃ st', addCandidateEdge graph ots (comb.map (·.id)) av.id st e = some st' ∧
      GenInv graph ots n st' ∧
      (∀ s j, List.lookup s st.2 = some j → List.lookup s st'.2 = some j) := by
  obtain ⟨hfrom, hto⟩ := wfb_mem_edge hwf (hcomb av hav) he
  obtain ⟨tv, hget⟩ : ∃ tv, graph.vertices.get? e.to' = some tv :=
    ⟨_, List.get?_eq_get hto⟩
  have hget' : graph.vertices[e.to']? = some tv := by
    rw [← List.get?_eq_getElem?]
    exact hget
  have htveq : tv = graph.vertices.get ⟨e.to', hto⟩ :=
    (Option.some.inj ((List.get?_eq_get hto).symm.trans hget)).symm
  have htvid : tv.id = e.to' := by
    have h := wfb_getD_id hwf hto
    rw [List.getD_eq_getElem _ _ hto] at h
    rw [htveq]
    exact h
  obtain ⟨j, hj⟩ := hact av hav
  have hjlt : j < st.1.vertices.length := hinv.1 _ _ hj
  by_cases hty : tv.vertex_type ∈ ots
  · cases hlk : List.lookup tv.id st.2 with
    | some i =>
      obtain ⟨g', hpush, hlen, hne, heqj⟩ :=
        @pushEdgeAt_spec st.1 j i e.e_label hjlt
      refine ⟨(g', st.2), ?_, ?_, fun s j' h => h⟩
      · simp [addCandidateEdge, hget', hty, hlk, hj, hpush]
      · exact genInv_push hinv (hcomb av hav) he hfrom hj hjlt
          (htvid ▸ hlk) hlen hne heqj
    | none =>
      have hinv2 := @genInv_create graph ots n st hinv tv.label tv.vertex_type
        tv.id hty
      have hj2 : List.lookup av.id (st.2 ++ [(tv.id, st.1.vertices.length)]) = some j :=
        lookup_append_some hj
      have hto2 : List.lookup e.to' (st.2 ++ [(tv.id, st.1.vertices.length)]) =
          some st.1.vertices.length := by
        rw [← htvid]
        exact lookup_append_self hlk
      have hclen : (st.1.create_vertex_with_data tv.label tv.vertex_type).vertices.length =
          st.1.vertices.length + 1 := by
        simp [Graph.create_vertex_with_data]
      have hjlt2 : j < (st.1.create_vertex_with_data tv.label tv.vertex_type).vertices.length := by
        omega
      obtain ⟨g', hpush, hlen, hne, heqj⟩ :=
        @pushEdgeAt_spec (st.1.create_vertex_with_data tv.label tv.vertex_type)
          j st.1.vertices.length e.e_label hjlt2
      refine ⟨(g', st.2 ++ [(tv.id, st.1.vertices.length)]), ?_, ?_,
        fun s j' h => lookup_append_some h⟩
      · simp [addCandidateEdge, hget', hty, hlk, hj2, hpush]
      · exact genInv_push hinv2 (hcomb av hav) he hfrom hj2 hjlt2 hto2 hlen hne heqj
  · by_cases hmem : tv.id ∈ comb.map (·.id)
    · obtain ⟨w, hw, hwid⟩ := List.mem_map.mp hmem
      obtain ⟨jj, hjj⟩ := hact w hw
      have hjjlt : jj < st.1.vertices.length := hinv.1 _ _ hjj
      have hjj' : List.lookup tv.id st.2 = some jj := by rw [← hwid]; exact hjj
      obtain ⟨g', hpush, hlen, hne, heqj⟩ :=
        @pushEdgeAt_spec st.1 j jj e.e_label hjlt
      refine ⟨(g', st.2), ?_, ?_, fun s j' h => h⟩
      · simp [addCandidateEdge, hget', hty, hj, hjj', hpush]
        intro h
        exact absurd hwid (h w hw)
      · exact genInv_push hinv (hcomb av hav) he hfrom hj hjlt
          (htvid ▸ hjj') hlen hne heqj
    · refine ⟨st, ?_, hinv, fun _ _ h => h⟩
      simp [addCandidateEdge, hget', hty]
      intro x hx heq
      exact absurd (heq ▸ List.mem_map_of_mem (fun v => v.id) hx) hmem

/-- The edge loop of one activity vertex preserves the construction
invariant and never fails. -/
theorem edgesFoldM_spec {graph : Graph} (hwf : graph.wfb = true)
    {ots : List Nat} {n : Nat} {comb : List Vertex}
    (hcomb : ∀ v ∈ comb, v ∈ graph.vertices)
    {av : Vertex} (hav : av ∈ comb) :
    ∀ (es : List Edge), (∀ e ∈ es, e ∈ av.edges) →
    ∀ (st : Graph × List (Nat × Nat)), GenInv graph ots n st →
      (∀ w ∈ comb, ∃ j, List.lookup w.id st.2 = some j) →
    ∃ st', es.foldlM (addCandidateEdge graph ots (comb.map (·.id)) av.id) st = some st' ∧
      GenInv graph ots n st' ∧
      (∀ s j, List.lookup s st.2 = some j → List.lookup s st'.2 = some j) := by
  intro es
  induction es with
  | nil => intro _ st hinv _; exact ⟨st, rfl, hinv, fun _ _ h => h⟩
  | cons e rest ih =>
    intro hes st hinv hact
    obtain ⟨st1, hstep, hinv1, hmono1⟩ :=
      addCandidateEdge_spec hwf hcomb hav hinv hact (hes e (List.mem_cons_self e rest))
    obtain ⟨st', hrest, hinv', hmono'⟩ := ih (fun x hx => hes x (List.mem_cons_of_mem e hx))
      st1 hinv1 (fun w hw => (hact w hw).imp fun j hj => hmono1 _ _ hj)
    refine ⟨st', ?_, hinv', fun s j h => hmono' s j (hmono1 s j h)⟩
    rw [List.foldlM_cons, hstep]
    exact hrest

/-- The outer phase-two loop of `buildCandidate` preserves the construction
invariant and never fails. -/
theorem phase2FoldM_spec {graph : Graph} (hwf : graph.wfb = true)
    {ots : List Nat} {n : Nat} {comb : List Vertex}
    (hcomb : ∀ v ∈ comb, v ∈ graph.vertices) :
    ∀ (cl : List Vertex), (∀ v ∈ cl, v ∈ comb) →
    ∀ (st : Graph × List (Nat × Nat)), GenInv graph ots n st →
      (∀ w ∈ comb, ∃ j, List.lookup w.id st.2 = some j) →
    ∃ st', cl.foldlM (fun st av =>
        av.edges.foldlM (addCandidateEdge graph ots (comb.map (·.id)) av.id) st) st
          = some st' ∧
      GenInv graph ots n st' ∧
      (∀ s j, List.lookup s st.2 = some j → List.lookup s st'.2 = some j) := by
  intro cl
  induction cl with
  | nil => intro _ st hinv _; exact ⟨st, rfl, hinv, fun _ _ h => h⟩
  | cons av cl ih =>
    intro hcl st hinv hact
    obtain ⟨st1, hstep, hinv1, hmono1⟩ :=
      edgesFoldM_spec hwf hcomb (hcl av (List.mem_cons_self av cl)) av.edges
        (fun _ h => h) st hinv hact
    obtain ⟨st', hrest, hinv', hmono'⟩ := ih (fun x hx => hcl x (List.mem_cons_of_mem av hx))
      st1 hinv1 (fun w hw => (hact w hw).imp fun j hj => hmono1 _ _ hj)
    refine ⟨st', ?_, hinv', fun s j h => hmono' s j (hmono1 s j h)⟩
    rw [List.foldlM_cons, hstep]
    exact hrest

/-- Lookups survive the phase-one fold (it only appends bindings). -/
theorem phase1_lookup_mono :
    ∀ (comb : List Vertex) (g : Graph) (mp : List (Nat × Nat)) (s j : Nat),
      List.lookup s mp = some j →
      List.lookup s (comb.foldl (fun st av =>
        (st.1.create_vertex_with_data av.label av.vertex_type,
          st.2 ++ [(av.id, st.1.vertices.length)])) (g, mp)).2 = some j
  | [], _, _, _, _, h => h
  | av :: comb, g, mp, s, j, h => by
    rw [List.foldl_cons]
    exact phase1_lookup_mono comb _ _ s j (lookup_append_some h)

/-- Phase one of `buildCandidate`: copying the activity combination appends
one edge-free vertex per member and records each member's candidate index. -/
theorem phase1_spec :
    ∀ (comb : List Vertex) (g : Graph) (mp : List (Nat × Nat)),
      (∀ s j, List.lookup s mp = some j → j < g.vertices.length) →
      (∀ i (h : i < g.vertices.length), (g.vertices.get ⟨i, h⟩).edges = []) →
      ((comb.foldl (fun st av =>
          (st.1.create_vertex_with_data av.label av.vertex_type,
            st.2 ++ [(av.id, st.1.vertices.length)])) (g, mp)).1.vertices.length
          = g.vertices.length + comb.length ∧
       (∀ s j, List.lookup s (comb.foldl (fun st av =>
          (st.1.create_vertex_with_data av.label av.vertex_type,
            st.2 ++ [(av.id, st.1.vertices.length)])) (g, mp)).2 = some j →
          j < (comb.foldl (fun st av =>
            (st.1.create_vertex_with_data av.label av.vertex_type,
              st.2 ++ [(av.id, st.1.vertices.length)])) (g, mp)).1.vertices.length) ∧
       (∀ av ∈ comb, ∃ j, List.lookup av.id (comb.foldl (fun st av =>
          (st.1.create_vertex_with_data av.label av.vertex_type,
            st.2 ++ [(av.id, st.1.vertices.length)])) (g, mp)).2 = some j) ∧
       (∀ i (h : i < (comb.foldl (fun st av =>
          (st.1.create_vertex_with_data av.label av.vertex_type,
            st.2 ++ [(av.id, st.1.vertices.length)])) (g, mp)).1.vertices.length),
          ((comb.foldl (fun st av =>
            (st.1.create_vertex_with_data av.label av.vertex_type,
              st.2 ++ [(av.id, st.1.vertices.length)])) (g, mp)).1.vertices.get
                ⟨i, h⟩).edges = [])) := by
  intro comb
  induction comb with
  | nil =>
    intro g mp ha hb
    exact ⟨by simp, ha, by simp, hb⟩
  | cons av comb ih =>
    intro g mp ha hb
    have hlen1 : (g.create_vertex_with_data av.label av.vertex_type).vertices.length =
        g.vertices.length + 1 := by
      simp [Graph.create_vertex_with_data]
    have ha1 : ∀ s j, List.lookup s (mp ++ [(av.id, g.vertices.length)]) = some j →
        j < (g.create_vertex_with_data av.label av.vertex_type).vertices.length := by
      intro s j hj
      rcases lookup_append_cases hj with hj | ⟨_, _, rfl⟩
      · exact hlen1 ▸ Nat.lt_succ_of_lt (ha s j hj)
      · omega
    have hb1 : ∀ i (h : i <
        (g.create_vertex_with_data av.label av.vertex_type).vertices.length),
        ((g.create_vertex_with_data av.label av.vertex_type).vertices.get ⟨i, h⟩).edges
          = [] := by
      intro i h
      by_cases hil : i < g.vertices.length
      · have : (g.create_vertex_with_data av.label av.vertex_type).vertices.get ⟨i, h⟩ =
            g.vertices.get ⟨i, hil⟩ := by
          simp only [Graph.create_vertex_with_data, List.get_eq_getElem]
          exact List.getElem_append_left hil
        rw [this]
        exact hb i hil
      · have hie : i = g.vertices.length := by omega
        have : (g.create_vertex_with_data av.label av.vertex_type).vertices.get ⟨i, h⟩ =
            ⟨g.vertices.length, av.label, av.vertex_type, []⟩ := by
          simp only [Graph.create_vertex_with_data, List.get_eq_getElem]
          exact List.getElem_concat_length _ _ _ hie _
        rw [this]
    obtain ⟨ih1, ih2, ih3, ih4⟩ :=
      ih (g.create_vertex_with_data av.label av.vertex_type)
        (mp ++ [(av.id, g.vertices.length)]) ha1 hb1
    rw [List.foldl_cons]
    refine ⟨by rw [ih1, hlen1, List.length_cons]; omega, ih2, ?_, ih4⟩
    intro w hw
    rcases List.mem_cons.mp hw with rfl | hw'
    · cases hlkm : List.lookup w.id mp with
      | some j => exact ⟨j, phase1_lookup_mono comb _ _ _ _ (lookup_append_some hlkm)⟩
      | none => exact ⟨_, phase1_lookup_mono comb _ _ _ _ (lookup_append_self hlkm)⟩
    · exact ih3 w hw'

/-- `buildCandidate` never fails on a well-formed graph, and its output
satisfies the three structural properties of claim C4: at least the
combination's vertices, object-typed vertices past them, and edge
correspondence through the mapping. -/
theorem buildCandidate_spec {graph : Graph} (hwf : graph.wfb = true) {ots : List Nat}
    {comb : List Vertex} (hcomb : ∀ v ∈ comb, v ∈ graph.vertices) (newId : Nat) :
    ∃ C mp, buildCandidate graph ots comb newId = some (C, mp) ∧
      comb.length ≤ C.vertices.length ∧
      (∀ j (h : j < C.vertices.length), comb.length ≤ j →
        (C.vertices.get ⟨j, h⟩).vertex_type ∈ ots) ∧
      (∀ i (hi : i < C.vertices.length), ∀ ce ∈ (C.vertices.get ⟨i, hi⟩).edges,
        ∃ v ∈ graph.vertices, ∃ e ∈ v.edges,
          List.lookup e.from' mp = some i ∧ List.lookup e.to' mp = some ce.to' ∧
          e.e_label = ce.e_label) := by
  obtain ⟨h1, h2, h3, h4⟩ := phase1_spec comb (Graph.new newId) []
    (fun s j h => by simp [List.lookup] at h)
    (fun i h => by simp [Graph.new] at h)
  have hinv0 : GenInv graph ots comb.length (comb.foldl (fun st av =>
      (st.1.create_vertex_with_data av.label av.vertex_type,
        st.2 ++ [(av.id, st.1.vertices.length)])) (Graph.new newId, [])) := by
    refine ⟨h2, ?_, ?_, ?_⟩
    · rw [h1]
      simp [Graph.new]
    · intro j hj hn
      exfalso
      rw [h1] at hj
      simp [Graph.new] at hj
      omega
    · intro i hi ce hce
      rw [h4 i hi] at hce
      simp at hce
  obtain ⟨st', hfold, hinv', _⟩ :=
    phase2FoldM_spec hwf hcomb comb (fun _ h => h) _ hinv0 h3
  refine ⟨st'.1, st'.2, ?_, hinv'.2.1, hinv'.2.2.1, hinv'.2.2.2⟩
  simp only [buildCandidate]
  rw [hfold]

/-- One combination step of the generator: never fails on a non-empty
combination over a well-formed graph, and any appended candidate satisfies
`C4Prop`. -/
theorem genStep_spec {graph : Graph} (hwf : graph.wfb = true) {t : Nat} {ots : List Nat}
    {min_n max_n n : Nat} (hmin : min_n ≤ n) (hmax : n ≤ max_n) (hn : 1 ≤ n)
    {comb : List Vertex} (hlen : comb.length = n)
    (hmem : ∀ v ∈ comb, v ∈ get_vertices_by_type graph t)
    (st : List (Graph × List (Nat × Nat)) × Nat)
    (hst : ∀ cm ∈ st.1, C4Prop graph t ots min_n max_n cm) :
    ∃ st', genStep graph ots st comb = some st' ∧
      ∀ cm ∈ st'.1, C4Prop graph t ots min_n max_n cm := by
  have hcg : ∀ v ∈ comb, v ∈ graph.vertices ∧ v.vertex_type = t := by
    intro v hv
    have hm := List.mem_filter.mp (hmem v hv)
    exact ⟨hm.1, by simpa using hm.2⟩
  rcases comb with _ | ⟨v0, cr⟩
  · exact absurd hlen (by simp; omega)
  · 
    obtain ⟨b, hb⟩ : ∃ b, vertices_are_connected (v0 :: cr) = some b := ⟨_, rfl⟩
    cases b with
    | false =>
      refine ⟨st, ?_, hst⟩
      simp [genStep, hb]
    | true =>
      obtain ⟨C, mp, hbc, hp1, hp2, hp3⟩ :=
        @buildCandidate_spec graph hwf ots (v0 :: cr) (fun v hv => (hcg v hv).1) (st.2 + 1)
      refine ⟨(st.1 ++ [(C, mp)], st.2 + 1), ?_, ?_⟩
      · simp [genStep, hb, hbc]
      · intro cm hcm
        rcases List.mem_append.mp hcm with hcm | hcm
        · exact hst cm hcm
        · rw [List.mem_singleton] at hcm
          subst hcm
          exact ⟨n, v0 :: cr, hmin, hmax, hlen, hcg,
            vertices_are_connected_sound hb, hlen ▸ hp1, hlen ▸ hp2, hp3⟩

/-- The inner fold over the size-`n` combinations. -/
theorem innerFoldM_spec {graph : Graph} (hwf : graph.wfb = true) {t : Nat} {ots : List Nat}
    {min_n max_n n : Nat} (hmin : min_n ≤ n) (hmax : n ≤ max_n) (hn : 1 ≤ n) :
    ∀ (combs : List (List Vertex)),
      (∀ c ∈ combs, c.length = n ∧ ∀ v ∈ c, v ∈ get_vertices_by_type graph t) →
    ∀ (st : List (Graph × List (Nat × Nat)) × Nat),
      (∀ cm ∈ st.1, C4Prop graph t ots min_n max_n cm) →
    ∃ st', combs.foldlM (genStep graph ots) st = some st' ∧
      ∀ cm ∈ st'.1, C4Prop graph t ots min_n max_n cm := by
  intro combs
  induction combs with
  | nil => intro _ st hst; exact ⟨st, rfl, hst⟩
  | cons comb rest ih =>
    intro hc st hst
    obtain ⟨hlen, hmem⟩ := hc comb (List.mem_cons_self comb rest)
    obtain ⟨st1, hstep, hst1⟩ := genStep_spec hwf hmin hmax hn hlen hmem st hst
    obtain ⟨st', hrest, hst'⟩ := ih (fun c h => hc c (List.mem_cons_of_mem comb h)) st1 hst1
    refine ⟨st', ?_, hst'⟩
    rw [List.foldlM_cons, hstep]
    exact hrest

/-- The outer fold over the candidate sizes. -/
theorem outerFoldM_spec {graph : Graph} (hwf : graph.wfb = true) {t : Nat} {ots : List Nat}
    {min_n max_n : Nat} :
    ∀ (ns : List Nat), (∀ n ∈ ns, min_n ≤ n ∧ n ≤ max_n ∧ 1 ≤ n) →
    ∀ (st : List (Graph × List (Nat × Nat)) × Nat),
      (∀ cm ∈ st.1, C4Prop graph t ots min_n max_n cm) →
    ∃ st', ns.foldlM (fun st n =>
        ((get_vertices_by_type graph t).sublistsLen n).foldlM (genStep graph ots) st) st
          = some st' ∧
      ∀ cm ∈ st'.1, C4Prop graph t ots min_n max_n cm := by
  intro ns
  induction ns with
  | nil => intro _ st hst; exact ⟨st, rfl, hst⟩
  | cons n rest ih =>
    intro hns st hst
    obtain ⟨hmin, hmax, hn⟩ := hns n (List.mem_cons_self n rest)
    obtain ⟨st1, hstep, hst1⟩ := innerFoldM_spec hwf hmin hmax hn
      ((get_vertices_by_type graph t).sublistsLen n)
      (fun c hc => by
        obtain ⟨hsl, hcl⟩ := List.mem_sublistsLen.mp hc
        exact ⟨hcl, fun v hv => hsl.subset hv⟩)
      st hst
    obtain ⟨st', hrest, hst'⟩ := ih (fun m h => hns m (List.mem_cons_of_mem n h)) st1 hst1
    refine ⟨st', ?_, hst'⟩
    rw [List.foldlM_cons, hstep]
    exact hrest

/-- The per-graph generator succeeds whenever `min_n ≥ 1` (on a well-formed
graph), and every produced candidate satisfies `C4Prop`. -/
theorem generator_spec {graph : Graph} (hwf : graph.wfb = true) {t : Nat} {ots : List Nat}
    {min_n max_n : Nat} (hmin : 1 ≤ min_n) (counter : Nat) :
    ∃ out, _get_fully_connected_candidates_of_graph graph t ots min_n max_n counter
        = some out ∧
      ∀ cm ∈ out.1, C4Prop graph t ots min_n max_n cm := by
  obtain ⟨st', heq, hst'⟩ := @outerFoldM_spec graph hwf t ots min_n max_n
    (List.range' min_n (max_n + 1 - min_n))
    (fun n hn => by
      rw [List.mem_range'_1] at hn
      exact ⟨hn.1, by omega, by omega⟩)
    ([], counter) (by simp)
  exact ⟨st', heq, hst'⟩

/-- With `min_n = 0` the generator always panics: the first enumerated
combination is empty and the oracle dereferences its first element. -/
theorem generator_none_of_min0 {graph : Graph} {t : Nat} {ots : List Nat}
    {max_n counter : Nat} :
    _get_fully_connected_candidates_of_graph graph t ots 0 max_n counter = none := by
  have hr : List.range' 0 (max_n + 1 - 0) = 0 :: List.range' 1 max_n := by
    rw [Nat.sub_zero, List.range'_succ]
  have hz : ((get_vertices_by_type graph t).sublistsLen 0).foldlM (genStep graph ots)
      (([] : List (Graph × List (Nat × Nat))), counter) = none := by
    rw [List.sublistsLen_zero, List.foldlM_cons]
    have hstep : genStep graph ots ([], counter) [] = none := by
      simp [genStep, vertices_are_connected]
    rw [hstep]
    rfl
  simp only [_get_fully_connected_candidates_of_graph]
  rw [hr]
  simp only [List.foldlM_cons]
  rw [hz]
  rfl

/-! ## C4: generator invariants -/

/-- Claim C4, confirmed (for well-formed input graphs): every candidate
produced by the FullyConnected generator comes from a weakly connected
activity combination of size `n ∈ [min_n, max_n]`, carries that combination as
its first `n` vertices followed only by attached object-typed vertices (so
`|C.V|` is `n` plus the number of attached objects), and each of its edges
corresponds through the id mapping to a source edge with the same label. -/
theorem c4_generator_invariants {graph : Graph} (hwf : graph.wfb = true)
    {t : Nat} {ots : List Nat} {min_n max_n counter : Nat}
    {out : List (Graph × List (Nat × Nat)) × Nat}
    (hrun : _get_fully_connected_candidates_of_graph graph t ots min_n max_n counter
      = some out) :
    ∀ cm ∈ out.1, C4Prop graph t ots min_n max_n cm := by
  by_cases hmin : 1 ≤ min_n
  · obtain ⟨out', heq, hprop⟩ := generator_spec hwf hmin counter
    rw [heq] at hrun
    exact Option.some.inj hrun ▸ hprop
  · have hz : min_n = 0 := by omega
    rw [hz, generator_none_of_min0] at hrun
    exact absurd hrun (by simp)

/-- Witness: the C4 invariants on the concrete graph `c4G` with
`min_n = max_n = 2`. -/
theorem c4_generator_invariants_witness :
    c4G.wfb = true ∧
    ∃ out, _get_fully_connected_candidates_of_graph c4G 0 [] 2 2 0 = some out ∧
      ∀ cm ∈ out.1, C4Prop c4G 0 [] 2 2 cm :=
  ⟨by decide, _, rfl, c4_generator_invariants (by decide) rfl⟩

/-! ## C10: totality of the oracle and of the generator -/

/-- Claim C10, confirmed: `vertices_are_connected` panics exactly on the empty
vertex list, and (on a well-formed graph) the FullyConnected generator avoids
the panic precisely when `min_n ≥ 1` — with `min_n = 0` its very first oracle
call receives the empty combination. -/
theorem c10_oracle_totality :
    (∀ vs : List Vertex, vertices_are_connected vs = none ↔ vs = []) ∧
    (∀ (graph : Graph) (t : Nat) (ots : List Nat) (min_n max_n counter : Nat),
      graph.wfb = true →
      ((_get_fully_connected_candidates_of_graph graph t ots min_n max_n counter).isSome
        ↔ 1 ≤ min_n)) := by
  constructor
  · intro vs
    cases vs with
    | nil => simp [vertices_are_connected]
    | cons v rest => simp [vertices_are_connected]
  · intro graph t ots min_n max_n counter hwf
    constructor
    · intro hsome
      by_contra hmin
      have hz : min_n = 0 := by omega
      rw [hz, generator_none_of_min0] at hsome
      simp at hsome
    · intro hmin
      obtain ⟨out, heq, _⟩ := generator_spec hwf hmin counter
      rw [heq]
      rfl

/-- Witness: the C10 characterization on the empty list and on `c4G`. -/
theorem c10_oracle_totality_witness :
    vertices_are_connected ([] : List Vertex) = none ∧ c4G.wfb = true ∧
      ((_get_fully_connected_candidates_of_graph c4G 0 [] 2 2 0).isSome ↔ 1 ≤ 2) :=
  ⟨(c10_oracle_totality.1 []).mpr rfl, by decide,
    c10_oracle_totality.2 c4G 0 [] 2 2 0 (by decide)⟩

section Sanity

/-- The example of `test_vertices_are_connected`: a two-vertex selection with no
induced edge is reported disconnected. -/
example :
    vertices_are_connected
      [⟨0, 1, 2, [Edge.mk 0 1 0 0, Edge.mk 0 2 0 1]⟩, ⟨3, 4, 2, []⟩] = some false := by
  decide

example :
    vertices_are_connected [⟨0, 1, 2, [Edge.mk 0 1 0 0]⟩, ⟨1, 2, 2, []⟩] = some true := by
  decide

end Sanity

end CPD
